import Mathlib

/-!
Sparse complex vectors and FFT-based convolution (`final_exam_ws17/2/2.cpp`).

A shallow embedding of the class `SparseVec` and of its operations.

* `int` is embedded as `Int`; the embedding describes the executions in which no
  signed arithmetic overflows (overflow of `int` is undefined in C++).
* `std::complex<double>` is embedded as an arbitrary commutative ring / field `R`
  (exact arithmetic); the root of unity `std::exp(-2 * PI / n * I)` is a parameter
  `omega : Int → R` of the transforms, instantiated with the complex exponential
  in the theorems about `ℂ`.
* A read outside the storage of a `std::vector` (dereferencing `end()`, or
  `pairs[m]` with `m` no valid position) is undefined behaviour in the source; the
  embedding reports it as `Res.fault`.
* `fft` recurses without a structural bound, so it carries a fuel argument;
  `Res.outOfFuel` is the answer of a run that needed more recursion depth.
-/

namespace NumCSE

/-- Outcome of running a piece of the program. -/
inductive Res (α : Type) where
  | ok (a : α)
  | fault
  | outOfFuel
  deriving DecidableEq, Repr

/-- Sequencing of outcomes. -/
def Res.bind {α β : Type} (r : Res α) (f : α → Res β) : Res β :=
  match r with
  | Res.ok a => f a
  | Res.fault => Res.fault
  | Res.outOfFuel => Res.outOfFuel

/-- The class `Pair`: an index together with a value. -/
structure Pair (R : Type) where
  ind : Int
  val : R
  deriving DecidableEq, Repr

/-- The class `SparseVec`: the entry sequence `pairs` and the declared length `len`. -/
structure SparseVec (R : Type) where
  pairs : List (Pair R)
  len : Int
  deriving DecidableEq, Repr

variable {R : Type}

namespace SparseVec

/-- The constructor `SparseVec()`: no entries, `len = 0`. -/
def empty : SparseVec R := ⟨[], 0⟩

/-- The constructor `SparseVec(int l)`. -/
def ofLen (l : Int) : SparseVec R := ⟨[], l⟩

/-- The method `append`: bump `len` when `ind >= len`, then `push_back`. -/
def append (v : SparseVec R) (ind : Int) (val : R) : SparseVec R :=
  { pairs := v.pairs ++ [⟨ind, val⟩]
    len := if ind ≥ v.len then ind + 1 else v.len }

/-- The call `std::sort(pairs.begin(), pairs.end(), [](Pair x, Pair y){ return x.ind < y.ind; })`,
embedded as an insertion sort on the index. -/
def sortPairs (l : List (Pair R)) : List (Pair R) :=
  l.insertionSort (fun x y => x.ind ≤ y.ind)

/-- The `for` loop of `cleanup` over the sorted entries; `tmp` is the running sum. -/
def cleanupLoop [Add R] [Zero R] : List (Pair R) → R → List (Pair R)
  | [], _ => []
  | [p], tmp => [⟨p.ind, tmp + p.val⟩]
  | p :: q :: rest, tmp =>
    if q.ind ≠ p.ind then
      ⟨p.ind, tmp + p.val⟩ :: cleanupLoop (q :: rest) 0
    else
      cleanupLoop (q :: rest) (tmp + p.val)

/-- The method `cleanup`: sort by index, then merge runs of equal index. -/
def cleanup [Add R] [Zero R] (v : SparseVec R) : SparseVec R :=
  { pairs := cleanupLoop (sortPairs v.pairs) 0
    len := v.len }

/-- The element `pairs[m]` for an `int` position `m`; `none` when `m` is no valid
position (reading there is undefined behaviour in the source). -/
def readAt (l : List (Pair R)) (m : Int) : Option (Pair R) :=
  if m < 0 then none else l[m.toNat]?

/-- The method `_get`: binary search for `ind` among the positions `n1 .. n2`. The
recursion is bounded by `fuel`; `get` supplies enough of it. -/
def _get [Zero R] (pairs : List (Pair R)) (ind : Int) : Nat → Int → Int → Res R
  | 0, _, _ => Res.outOfFuel
  | fuel + 1, n1, n2 =>
    if n2 < n1 then Res.ok 0
    else
      let m := (n1 + n2).tdiv 2
      match readAt pairs m with
      | none => Res.fault
      | some p =>
        if p.ind = ind then Res.ok p.val
        else if p.ind < ind then _get pairs ind fuel (m + 1) n2
        else if p.ind > ind then _get pairs ind fuel n1 (m - 1)
        else Res.fault

/-- The method `get`: `0` for a vector without entries, else `_get(ind, 0, pairs.size())`. -/
def get [Zero R] (v : SparseVec R) (ind : Int) : Res R :=
  if v.pairs.length = 0 then Res.ok 0
  else _get v.pairs ind (v.pairs.length + 2) 0 v.pairs.length

/-- The method `conj`: a vector of the same declared length to which every entry is
appended with its value conjugated. -/
def conj [Star R] (v : SparseVec R) : SparseVec R :=
  v.pairs.foldl (fun out pair => out.append pair.ind (star pair.val)) (ofLen v.len)

/-- The state of the two-pointer walk of `cwiseMult`: the entries from `it_a` and from
`it_b` onwards, and the output so far. -/
structure Walk (R : Type) where
  ita : List (Pair R)
  itb : List (Pair R)
  out : SparseVec R

/-- One pass through the body of the `while` loop of `cwiseMult`, entered with both
iterators before the end. The three `if` statements run one after the other, and the
second and the third dereference both iterators without another test against `end()`. -/
def cwiseBody [Mul R] (s : Walk R) : Res (Walk R) :=
  match s.ita, s.itb with
  | a :: as, b :: bs =>
    let s1 : Walk R :=
      if a.ind = b.ind then ⟨as, bs, s.out.append a.ind (a.val * b.val)⟩ else s
    match s1.ita, s1.itb with
    | a1 :: as1, b1 :: _ =>
      let s2 : Walk R := if a1.ind < b1.ind then ⟨as1, s1.itb, s1.out⟩ else s1
      match s2.ita, s2.itb with
      | a2 :: _, b2 :: bs2 =>
        Res.ok (if b2.ind < a2.ind then ⟨s2.ita, bs2, s2.out⟩ else s2)
      | _, _ => Res.fault
    | _, _ => Res.fault
  | _, _ => Res.ok s

/-- The `while` loop of `cwiseMult`, bounded by `fuel`. -/
def cwiseLoop [Mul R] : Nat → Walk R → Res (SparseVec R)
  | 0, s =>
    match s.ita, s.itb with
    | _ :: _, _ :: _ => Res.outOfFuel
    | _, _ => Res.ok s.out
  | fuel + 1, s =>
    match s.ita, s.itb with
    | _ :: _, _ :: _ => (cwiseBody s).bind (cwiseLoop fuel)
    | _, _ => Res.ok s.out

/-- The function `cwiseMult`; every pass of the loop advances an iterator, so the
number of entries of both operands bounds the number of passes. -/
def cwiseMult [Mul R] (a b : SparseVec R) : Res (SparseVec R) :=
  cwiseLoop (a.pairs.length + b.pairs.length) ⟨a.pairs, b.pairs, empty⟩

/-- The function `conv`: for every entry of `b` and every entry of `a`, append the
product of the values at the sum of the indices. -/
def conv [Mul R] (a b : SparseVec R) : SparseVec R :=
  b.pairs.foldl
    (fun out eb => a.pairs.foldl
      (fun out ea => out.append (eb.ind + ea.ind) (eb.val * ea.val)) out)
    (ofLen (a.len + b.len - 1))

/-- The first loop of `fft`: distribute the entries on `x_even` and `x_odd` by the
parity of their index (`%` and `/` of C++ truncate towards zero). -/
def splitLoop (ps : List (Pair R)) (x_even x_odd : SparseVec R) : SparseVec R × SparseVec R :=
  ps.foldl
    (fun acc p =>
      if p.ind.tmod 2 = 0 then (acc.1.append (p.ind.tdiv 2) p.val, acc.2)
      else (acc.1, acc.2.append ((p.ind - 1).tdiv 2) p.val))
    (x_even, x_odd)

/-- The second loop of `fft` over the remaining values `ks` of `k`:
`out.append(k, c_even.get(k % m) + c_odd.get(k % m) * std::pow(omega, k))`. -/
def butterflyLoop [Zero R] [Add R] [Mul R] [Pow R Nat] (omega : R) (m : Int)
    (c_even c_odd : SparseVec R) : List Nat → SparseVec R → Res (SparseVec R)
  | [], out => Res.ok out
  | k :: ks, out =>
    (c_even.get ((k : Int).tmod m)).bind fun e =>
    (c_odd.get ((k : Int).tmod m)).bind fun o =>
    butterflyLoop omega m c_even c_odd ks (out.append k (e + o * omega ^ k))

/-- The function `fft`. `omega n` stands for `std::exp(-2 * PI / n * I)`; `fuel` bounds
the depth of the recursion. -/
def fft [Zero R] [Add R] [Mul R] [Pow R Nat] (omega : Int → R) :
    Nat → SparseVec R → Res (SparseVec R)
  | 0, _ => Res.outOfFuel
  | fuel + 1, x =>
    let n := x.len
    if n = 1 then Res.ok x
    else
      let m := n.tdiv 2
      let halves := splitLoop x.pairs (ofLen m) (ofLen m)
      (fft omega fuel halves.1).bind fun c_even =>
      (fft omega fuel halves.2).bind fun c_odd =>
      butterflyLoop (omega n) m c_even c_odd (List.range n.toNat) (ofLen n)

/-- The function `ifft`: conjugate, transform, and append the conjugate of every
entry scaled by `1.0 / x.len`. -/
def ifft [Field R] [Star R] (omega : Int → R) (fuel : Nat) (x : SparseVec R) :
    Res (SparseVec R) :=
  (fft omega fuel x.conj).bind fun y =>
    Res.ok (y.pairs.foldl
      (fun out p => out.append p.ind ((1 / (x.len : R)) * star p.val)) empty)

/-- What a call of `convfft` leaves behind: the two operands, which are passed by
reference and get a new `len`, and the returned vector. -/
structure ConvfftRun (R : Type) where
  a : SparseVec R
  b : SparseVec R
  ret : Res (SparseVec R)

/-- The function `convfft`. -/
def convfft [Field R] [Star R] (omega : Int → R) (fuel : Nat) (a b : SparseVec R) :
    ConvfftRun R :=
  let len := a.len + b.len - 1
  let a1 : SparseVec R := { a with len := len }
  let b1 : SparseVec R := { b with len := len }
  { a := a1
    b := b1
    ret := (fft omega fuel a1).bind fun fa =>
      (fft omega fuel b1).bind fun fb =>
      (cwiseMult fa fb).bind fun prod => ifft omega fuel prod }

end SparseVec

open SparseVec in
/-- The vector `x` of the demo driver before its `cleanup()`; `I` is the imaginary unit. -/
def demoX [Field R] (I : R) : SparseVec R :=
  ((((ofLen 5).append 0 8.2).append 1 (1 - 2 * I)).append 3 (-3 + 4.66 * I)).append 4 (4 * I)

open SparseVec in
/-- The vector `y` of the demo driver before its `cleanup()`. -/
def demoY [Field R] (I : R) : SparseVec R :=
  (((ofLen 4).append 1 5).append 2 (1.21 - 4 * I)).append 3 (4 + 2.4 * I)

/-- The value a sequence of entries holds at index `i`: the sum of the contributions
stored at `i` (zero when there is none). -/
def coeff [Add R] [Zero R] (l : List (Pair R)) (i : Int) : R :=
  ((l.filter (fun p => decide (p.ind = i))).map Pair.val).sum

/-- Canonical form: the stored indices are strictly increasing. -/
def Canonical (l : List (Pair R)) : Prop :=
  (l.map Pair.ind).Sorted (· < ·)

instance (l : List (Pair R)) : Decidable (Canonical l) :=
  inferInstanceAs (Decidable ((l.map Pair.ind).Sorted (· < ·)))

/-- The part of the running sum `tmp` that belongs to index `i`: `tmp` is owed to the
index of the first remaining entry. -/
def pending [Zero R] (s : List (Pair R)) (tmp : R) (i : Int) : R :=
  match s with
  | [] => 0
  | p :: _ => if p.ind = i then tmp else 0

/-- The entries handed to the transform of the even half. -/
def evenPart (ps : List (Pair R)) : List (Pair R) :=
  (ps.filter (fun p => decide (p.ind.tmod 2 = 0))).map
    (fun p => (⟨p.ind.tdiv 2, p.val⟩ : Pair R))

/-- The entries handed to the transform of the odd half. -/
def oddPart (ps : List (Pair R)) : List (Pair R) :=
  (ps.filter (fun p => !decide (p.ind.tmod 2 = 0))).map
    (fun p => (⟨(p.ind - 1).tdiv 2, p.val⟩ : Pair R))

/-- The discrete Fourier transform of the values a sequence of entries holds at the
indices `0 .. n-1`, at frequency `k`, for the root `w`. -/
def dftSum [CommRing R] (w : R) (n : Nat) (l : List (Pair R)) (k : Nat) : R :=
  ∑ j ∈ Finset.range n, coeff l (j : Int) * w ^ (j * k)

/-- What the transforms need of `omega` at the power-of-two lengths: `omega n` is an
`n`-th root of unity and `omega (2 n)` squares to `omega n`. -/
def RootFamily [Monoid R] (omega : Int → R) : Prop :=
  ∀ e : Nat, omega ((2 : Int) ^ e) ^ (2 ^ e) = 1 ∧
    omega ((2 : Int) ^ (e + 1)) ^ 2 = omega ((2 : Int) ^ e)

/-- A bound above every stored index of a sequence of entries. -/
def indexBound (l : List (Pair R)) : Int :=
  l.foldr (fun p acc => max (p.ind + 1) acc) 0

/-- Well-formedness of a vector: every stored index `i` satisfies `0 <= i < len`. -/
def WellFormed (v : SparseVec R) : Prop :=
  ∀ p ∈ v.pairs, 0 ≤ p.ind ∧ p.ind < v.len

/-- The declared length that `append` produces when the entries `l` are appended one
after the other to a vector of declared length `L`: every entry at or above the current
length raises it to its index plus one. -/
def lenAfter (L : Int) (l : List (Pair R)) : Int :=
  l.foldl (fun len p => if p.ind ≥ len then p.ind + 1 else len) L

open SparseVec

/-! Canonicalisation -/

section Cleanup

variable [AddCommMonoid R]

theorem coeff_nil (i : Int) : coeff ([] : List (Pair R)) i = 0 := rfl

theorem coeff_cons (p : Pair R) (l : List (Pair R)) (i : Int) :
    coeff (p :: l) i = (if p.ind = i then p.val else 0) + coeff l i := by
  unfold coeff
  by_cases h : p.ind = i <;> simp [List.filter_cons, h]

theorem coeff_append (l₁ l₂ : List (Pair R)) (i : Int) :
    coeff (l₁ ++ l₂) i = coeff l₁ i + coeff l₂ i := by
  simp [coeff, List.filter_append]

theorem coeff_eq_zero_of_not_mem (l : List (Pair R)) (i : Int)
    (h : i ∉ l.map Pair.ind) : coeff l i = 0 := by
  induction l with
  | nil => rfl
  | cons p l ih =>
    simp only [List.map_cons, List.mem_cons, not_or] at h
    rw [coeff_cons, ih h.2, if_neg (fun e => h.1 e.symm), add_zero]

theorem coeff_perm {l₁ l₂ : List (Pair R)} (h : l₁.Perm l₂) (i : Int) :
    coeff l₁ i = coeff l₂ i := by
  unfold coeff
  exact ((h.filter _).map _).sum_eq

/-- In a canonical sequence the value held at a stored index is the stored value. -/
theorem coeff_of_mem {l : List (Pair R)} (hc : Canonical l) {p : Pair R} (hp : p ∈ l) :
    coeff l p.ind = p.val := by
  induction l with
  | nil => cases hp
  | cons q l ih =>
    have hq : ∀ j ∈ l.map Pair.ind, q.ind < j := by
      have := hc; unfold Canonical at this
      simpa using (List.sorted_cons.1 this).1
    have hl : Canonical l := by
      have := hc; unfold Canonical at this
      exact (List.sorted_cons.1 this).2
    rw [coeff_cons]
    rcases List.mem_cons.1 hp with rfl | hp
    · rw [if_pos rfl, coeff_eq_zero_of_not_mem, add_zero]
      intro hmem
      exact lt_irrefl _ (hq _ hmem)
    · have hlt : q.ind < p.ind := hq _ (List.mem_map_of_mem _ hp)
      rw [if_neg (ne_of_lt hlt), zero_add, ih hl hp]

theorem cleanupLoop_mem_ind (s : List (Pair R)) (tmp : R) (i : Int) :
    i ∈ (cleanupLoop s tmp).map Pair.ind ↔ i ∈ s.map Pair.ind := by
  induction s generalizing tmp with
  | nil => simp [cleanupLoop]
  | cons p t ih =>
    cases t with
    | nil => simp [cleanupLoop]
    | cons q rest =>
      by_cases h : q.ind = p.ind
      · have := ih (tmp + p.val)
        simp only [cleanupLoop, h, ne_eq, not_true_eq_false, if_false] at this ⊢
        rw [this]
        simp [h]
      · have := ih (0 : R)
        simp only [cleanupLoop, h, ne_eq, not_false_eq_true, if_true, List.map_cons,
          List.mem_cons] at this ⊢
        rw [this]

theorem cleanupLoop_coeff (s : List (Pair R)) (tmp : R) (i : Int)
    (hs : s.Sorted (fun x y => x.ind ≤ y.ind)) :
    coeff (cleanupLoop s tmp) i = coeff s i + pending s tmp i := by
  induction s generalizing tmp with
  | nil => simp [cleanupLoop, coeff_nil, pending]
  | cons p t ih =>
    have ht := (List.sorted_cons.1 hs).2
    cases t with
    | nil =>
      simp only [cleanupLoop, coeff_cons, coeff_nil, add_zero, pending]
      by_cases h : p.ind = i <;> simp [h, add_comm]
    | cons q rest =>
      by_cases h : q.ind = p.ind
      · have := ih (tmp + p.val) ht
        simp only [cleanupLoop, h, ne_eq, not_true_eq_false, if_false, pending] at this ⊢
        rw [this, coeff_cons p]
        by_cases h' : p.ind = i <;> simp [h']
        abel
      · have := ih (0 : R) ht
        simp only [cleanupLoop, h, ne_eq, not_false_eq_true, if_true, pending] at this ⊢
        rw [coeff_cons, this, coeff_cons p]
        by_cases h' : p.ind = i <;> simp [h']
        abel

theorem cleanupLoop_canonical (s : List (Pair R)) (tmp : R)
    (hs : s.Sorted (fun x y => x.ind ≤ y.ind)) :
    Canonical (cleanupLoop s tmp) := by
  induction s generalizing tmp with
  | nil => simp [cleanupLoop, Canonical]
  | cons p t ih =>
    have ht := (List.sorted_cons.1 hs).2
    have hp := (List.sorted_cons.1 hs).1
    cases t with
    | nil => simp [cleanupLoop, Canonical]
    | cons q rest =>
      by_cases h : q.ind = p.ind
      · simpa [cleanupLoop, h] using ih (tmp + p.val) ht
      · have hc := ih (0 : R) ht
        simp only [cleanupLoop, h, ne_eq, not_false_eq_true, if_true]
        unfold Canonical at hc ⊢
        rw [List.map_cons, List.sorted_cons]
        refine ⟨?_, hc⟩
        intro j hj
        rw [cleanupLoop_mem_ind] at hj
        obtain ⟨r, hr, rfl⟩ := List.mem_map.1 hj
        have h1 : p.ind ≤ q.ind := hp q (List.mem_cons_self _ _)
        have h2 : q.ind ≤ r.ind := by
          rcases List.mem_cons.1 hr with rfl | hr
          · exact le_refl _
          · exact (List.sorted_cons.1 ht).1 r hr
        exact lt_of_lt_of_le (lt_of_le_of_ne h1 (fun e => h e.symm)) h2

omit [AddCommMonoid R] in
theorem sortPairs_sorted (l : List (Pair R)) :
    (sortPairs l).Sorted (fun x y => x.ind ≤ y.ind) := by
  haveI : IsTotal (Pair R) (fun x y => x.ind ≤ y.ind) := ⟨fun a b => le_total a.ind b.ind⟩
  haveI : IsTrans (Pair R) (fun x y => x.ind ≤ y.ind) := ⟨fun a b c => le_trans⟩
  exact List.sorted_insertionSort _ l

omit [AddCommMonoid R] in
theorem sortPairs_perm (l : List (Pair R)) : (sortPairs l).Perm l :=
  List.perm_insertionSort _ l

theorem cleanup_canonical (v : SparseVec R) : Canonical v.cleanup.pairs :=
  cleanupLoop_canonical _ _ (sortPairs_sorted _)

theorem cleanup_mem_ind (v : SparseVec R) (i : Int) :
    i ∈ v.cleanup.pairs.map Pair.ind ↔ i ∈ v.pairs.map Pair.ind := by
  unfold cleanup
  rw [cleanupLoop_mem_ind]
  exact ((sortPairs_perm v.pairs).map _).mem_iff

theorem cleanup_coeff (v : SparseVec R) (i : Int) :
    coeff v.cleanup.pairs i = coeff v.pairs i := by
  unfold cleanup
  rw [cleanupLoop_coeff _ _ _ (sortPairs_sorted _), coeff_perm (sortPairs_perm v.pairs)]
  cases sortPairs v.pairs <;> simp [pending]

theorem cleanupLoop_of_canonical (s : List (Pair R)) (hs : Canonical s) :
    cleanupLoop s 0 = s := by
  induction s with
  | nil => rfl
  | cons p t ih =>
    have hc : Canonical t := by
      unfold Canonical at hs ⊢
      exact (List.sorted_cons.1 hs).2
    cases t with
    | nil => simp [cleanupLoop]
    | cons q rest =>
      have hlt : p.ind < q.ind := by
        unfold Canonical at hs
        exact (List.sorted_cons.1 hs).1 q.ind (by simp)
      have hne : q.ind ≠ p.ind := ne_of_gt hlt
      simp only [cleanupLoop, hne, ne_eq, not_false_eq_true, if_true, zero_add, ih hc]

omit [AddCommMonoid R] in
theorem sortPairs_of_canonical (s : List (Pair R)) (hs : Canonical s) : sortPairs s = s := by
  apply List.Sorted.insertionSort_eq
  unfold Canonical at hs
  have h := List.pairwise_map.1 hs
  exact h.imp (fun h => le_of_lt h)

/-- C1. For every raw entry sequence, after `cleanup()` the stored indices are strictly
increasing (so no index is stored twice), an index is stored iff it had at least one
raw contribution, every stored value is the sum of all raw contributions appended at
its index, and the declared length is untouched. -/
theorem cleanup_correct (v : SparseVec R) :
    (v.cleanup.pairs.map Pair.ind).Sorted (· < ·) ∧
    (v.cleanup.pairs.map Pair.ind).Nodup ∧
    (∀ i : Int, i ∈ v.cleanup.pairs.map Pair.ind ↔ i ∈ v.pairs.map Pair.ind) ∧
    (∀ p ∈ v.cleanup.pairs,
      p.val = ((v.pairs.filter (fun q => decide (q.ind = p.ind))).map Pair.val).sum) ∧
    v.cleanup.len = v.len := by
  have hc := cleanup_canonical v
  refine ⟨hc, List.Sorted.nodup hc, cleanup_mem_ind v, ?_, rfl⟩
  intro p hp
  have h1 := coeff_of_mem hc hp
  rw [cleanup_coeff] at h1
  exact h1.symm

/-- C8. `cleanup` is idempotent: a second `cleanup()` changes neither the entries
(indices, values, order) nor the declared length. -/
theorem cleanup_idempotent (v : SparseVec R) : v.cleanup.cleanup = v.cleanup := by
  have hc := cleanup_canonical v
  show SparseVec.mk (cleanupLoop (sortPairs v.cleanup.pairs) 0) v.cleanup.len = v.cleanup
  rw [sortPairs_of_canonical _ hc, cleanupLoop_of_canonical _ hc]

end Cleanup

/-! Lookup -/

section Lookup

variable [AddCommMonoid R]

omit [AddCommMonoid R] in
theorem canonical_getElem_lt {l : List (Pair R)} (hc : Canonical l) {j k : Nat}
    {p q : Pair R} (hj : l[j]? = some p) (hk : l[k]? = some q) (hjk : j < k) :
    p.ind < q.ind := by
  have h := List.pairwise_map.1 hc
  rw [List.pairwise_iff_getElem] at h
  obtain ⟨hj', rfl⟩ := List.getElem?_eq_some.1 hj
  obtain ⟨hk', rfl⟩ := List.getElem?_eq_some.1 hk
  exact h j k hj' hk' hjk

omit [AddCommMonoid R] in
theorem canonical_getElem_le {l : List (Pair R)} (hc : Canonical l) {j k : Nat}
    {p q : Pair R} (hj : l[j]? = some p) (hk : l[k]? = some q) (hjk : j ≤ k) :
    p.ind ≤ q.ind := by
  rcases Nat.lt_or_eq_of_le hjk with h | h
  · exact le_of_lt (canonical_getElem_lt hc hj hk h)
  · subst h
    rw [hj] at hk
    cases hk
    exact le_refl _

omit [AddCommMonoid R] in
theorem readAt_of_lt (l : List (Pair R)) {m : Int} (h0 : 0 ≤ m) (h1 : m < l.length) :
    ∃ p, readAt l m = some p ∧ l[m.toNat]? = some p := by
  have h2 : m.toNat < l.length := by omega
  refine ⟨l[m.toNat], ?_, List.getElem?_eq_getElem h2⟩
  unfold readAt
  rw [if_neg (by omega), List.getElem?_eq_getElem h2]

omit [AddCommMonoid R] in
theorem readAt_of_ge (l : List (Pair R)) {m : Int} (h1 : (l.length : Int) ≤ m) :
    readAt l m = none := by
  unfold readAt
  split
  · rfl
  · exact List.getElem?_eq_none (by omega)

/-- The binary search on a canonical sequence: as long as the search never has to look
at position `pairs.size()`, it returns the value held at `i`. -/
theorem _get_ok (l : List (Pair R)) (hc : Canonical l) (i : Int) :
    ∀ (fuel : Nat) (n1 n2 : Int), 0 ≤ n1 → n2 ≤ l.length →
      (n2 + 1 - n1).toNat < fuel →
      (∀ (k : Nat) (p : Pair R), (k : Int) < n1 → l[k]? = some p → p.ind < i) →
      (∀ (k : Nat) (p : Pair R), n2 < (k : Int) → l[k]? = some p → i < p.ind) →
      (n2 < l.length ∨ (n1 < l.length ∧ ∃ q ∈ l, i ≤ q.ind)) →
      _get l i fuel n1 n2 = Res.ok (coeff l i) := by
  intro fuel
  induction fuel with
  | zero => intro n1 n2 _ _ hf; omega
  | succ fuel ih =>
    intro n1 n2 h0 h2 hf hlo hhi hsafe
    unfold _get
    by_cases hlt : n2 < n1
    · rw [if_pos hlt, coeff_eq_zero_of_not_mem]
      intro hmem
      obtain ⟨p, hp, hpi⟩ := List.mem_map.1 hmem
      obtain ⟨k, hk⟩ := List.mem_iff_getElem?.1 hp
      by_cases hk1 : (k : Int) < n1
      · have := hlo k p hk1 hk; omega
      · have := hhi k p (by omega) hk; omega
    · rw [if_neg hlt]
      have hm : (n1 + n2).tdiv 2 = (n1 + n2) / 2 := Int.tdiv_eq_ediv (by omega) (by norm_num)
      simp only [hm]
      have hm0 : 0 ≤ (n1 + n2) / 2 := by omega
      have hm1 : (n1 + n2) / 2 < l.length := by
        rcases hsafe with h | ⟨h, _⟩ <;> omega
      obtain ⟨p, hr, hp⟩ := readAt_of_lt l hm0 hm1
      rw [hr]
      simp only
      by_cases he : p.ind = i
      · rw [if_pos he, ← he]
        have hmem : p ∈ l := List.mem_iff_getElem?.2 ⟨_, hp⟩
        rw [coeff_of_mem hc hmem]
      · rw [if_neg he]
        by_cases hl : p.ind < i
        · rw [if_pos hl]
          apply ih
          · omega
          · exact h2
          · clear hsafe; omega
          · intro k q hk hq
            have := canonical_getElem_le hc hq hp (by omega)
            omega
          · exact hhi
          · rcases hsafe with h | ⟨h, q, hq, hqi⟩
            · exact Or.inl h
            · right
              refine ⟨?_, q, hq, hqi⟩
              obtain ⟨k, hk⟩ := List.mem_iff_getElem?.1 hq
              have hkl : k < l.length := (List.getElem?_eq_some.1 hk).1
              by_contra hcon
              have := canonical_getElem_le hc hk hp (by omega)
              omega
        · rw [if_neg hl, if_pos (by omega)]
          apply ih
          · exact h0
          · omega
          · clear hsafe; omega
          · exact hlo
          · intro k q hk hq
            have := canonical_getElem_le hc hp hq (by omega)
            omega
          · exact Or.inl (by omega)

omit [AddCommMonoid R] in
/-- The binary search for an index above every stored index ends at position
`pairs.size()`, outside the storage. -/
theorem _get_fault (l : List (Pair R)) [Zero R] (i : Int) (hi : ∀ p ∈ l, p.ind < i) :
    ∀ (fuel : Nat) (n1 : Int), 0 ≤ n1 → n1 ≤ l.length →
      ((l.length : Int) + 1 - n1).toNat < fuel →
      _get l i fuel n1 l.length = Res.fault := by
  intro fuel
  induction fuel with
  | zero => intro n1 _ _ hf; omega
  | succ fuel ih =>
    intro n1 h0 h1 hf
    unfold _get
    rw [if_neg (by omega)]
    have hm : (n1 + (l.length : Int)).tdiv 2 = (n1 + l.length) / 2 :=
      Int.tdiv_eq_ediv (by omega) (by norm_num)
    simp only [hm]
    by_cases hn : n1 = l.length
    · rw [readAt_of_ge l (by omega)]
    · obtain ⟨p, hr, hp⟩ := readAt_of_lt l (m := (n1 + l.length) / 2) (by omega) (by omega)
      rw [hr]
      have hmem : p ∈ l := List.mem_iff_getElem?.2 ⟨_, hp⟩
      have hlt := hi p hmem
      simp only
      rw [if_neg (by omega), if_pos hlt]
      exact ih _ (by omega) (by omega) (by omega)

/-- What `get` does on a canonical vector: `0` without entries; a read outside the
storage when `i` is above every stored index; the value held at `i` otherwise. -/
theorem get_canonical (v : SparseVec R) (hc : Canonical v.pairs) (i : Int) :
    v.get i =
      if v.pairs.length = 0 then Res.ok 0
      else if ∀ p ∈ v.pairs, p.ind < i then Res.fault
      else Res.ok (coeff v.pairs i) := by
  unfold SparseVec.get
  by_cases hlen : v.pairs.length = 0
  · simp [hlen]
  · rw [if_neg hlen, if_neg hlen]
    by_cases hall : ∀ p ∈ v.pairs, p.ind < i
    · rw [if_pos hall]
      exact _get_fault v.pairs i hall _ 0 (le_refl _) (by omega) (by omega)
    · rw [if_neg hall]
      push_neg at hall
      obtain ⟨q, hq, hqi⟩ := hall
      apply _get_ok v.pairs hc i _ 0 _ (le_refl _) (le_refl _) (by omega)
      · intro k p hk; omega
      · intro k p hk hp
        have := (List.getElem?_eq_some.1 hp).1
        omega
      · exact Or.inr ⟨by omega, q, hq, hqi⟩

end Lookup

/-- C2, at the input where the code departs from it: the canonical vector with the one
entry `(0, 1)` and the index `5`, which is above every stored index. The claim promises
`0`; the search started on `[0, pairs.size()]` reads `pairs[1]`, outside the storage. -/
theorem get_above_last_faults :
    SparseVec.get (⟨[⟨0, 1⟩], 1⟩ : SparseVec ℂ) 5 = Res.fault := rfl

/-! Appending in a loop -/

section AppendLoop

variable {α : Type}

theorem foldl_append_pairs (f : α → Int) (g : α → R) (l : List α) (v : SparseVec R) :
    (l.foldl (fun out p => out.append (f p) (g p)) v).pairs
      = v.pairs ++ l.map (fun p => (⟨f p, g p⟩ : Pair R)) := by
  induction l generalizing v with
  | nil => simp
  | cons p t ih =>
    rw [List.foldl_cons, ih]
    simp [SparseVec.append]

theorem append_len_ge (v : SparseVec R) (i : Int) (x : R) : v.len ≤ (v.append i x).len := by
  unfold SparseVec.append
  simp only
  split <;> omega

theorem foldl_append_len_ge (f : α → Int) (g : α → R) (l : List α) (v : SparseVec R) :
    v.len ≤ (l.foldl (fun out p => out.append (f p) (g p)) v).len := by
  induction l generalizing v with
  | nil => simp
  | cons p t ih =>
    rw [List.foldl_cons]
    exact le_trans (append_len_ge v _ _) (ih _)

theorem foldl_append_len_of_lt (f : α → Int) (g : α → R) (l : List α) (v : SparseVec R)
    (h : ∀ p ∈ l, f p < v.len) :
    (l.foldl (fun out p => out.append (f p) (g p)) v).len = v.len := by
  induction l generalizing v with
  | nil => simp
  | cons p t ih =>
    have hp : f p < v.len := h p (List.mem_cons_self _ _)
    have hv : (v.append (f p) (g p)).len = v.len := by
      unfold SparseVec.append
      simp only
      rw [if_neg (by omega)]
    rw [List.foldl_cons, ih, hv]
    intro q hq
    rw [hv]
    exact h q (List.mem_cons_of_mem _ hq)

end AppendLoop

/-! Exact convolution -/

section Conv

theorem conv_pairs [Mul R] (a b : SparseVec R) :
    (conv a b).pairs
      = b.pairs.flatMap (fun eb => a.pairs.map
          (fun ea => (⟨eb.ind + ea.ind, eb.val * ea.val⟩ : Pair R))) := by
  unfold conv
  have key : ∀ (l : List (Pair R)) (w : SparseVec R),
      (l.foldl (fun out eb => a.pairs.foldl
        (fun out ea => out.append (eb.ind + ea.ind) (eb.val * ea.val)) out) w).pairs
      = w.pairs ++ l.flatMap (fun eb => a.pairs.map
          (fun ea => (⟨eb.ind + ea.ind, eb.val * ea.val⟩ : Pair R))) := by
    intro l
    induction l with
    | nil => intro w; simp
    | cons eb t ih =>
      intro w
      rw [List.foldl_cons, ih, foldl_append_pairs, List.flatMap_cons, List.append_assoc]
  rw [key]
  simp [ofLen]

theorem conv_len [Mul R] (a b : SparseVec R)
    (ha : ∀ p ∈ a.pairs, p.ind < a.len) (hb : ∀ p ∈ b.pairs, p.ind < b.len) :
    (conv a b).len = a.len + b.len - 1 := by
  unfold conv
  have key : ∀ (l : List (Pair R)) (w : SparseVec R), (∀ p ∈ l, p.ind < b.len) →
      w.len = a.len + b.len - 1 →
      (l.foldl (fun out eb => a.pairs.foldl
        (fun out ea => out.append (eb.ind + ea.ind) (eb.val * ea.val)) out) w).len
      = a.len + b.len - 1 := by
    intro l
    induction l with
    | nil => intro w _ hw; simpa using hw
    | cons eb t ih =>
      intro w hl hw
      rw [List.foldl_cons]
      apply ih
      · intro p hp
        exact hl p (List.mem_cons_of_mem _ hp)
      · rw [foldl_append_len_of_lt (fun ea : Pair R => eb.ind + ea.ind)
          (fun ea : Pair R => eb.val * ea.val), hw]
        intro p hp
        have h1 := ha p hp
        have h2 := hl eb (List.mem_cons_self _ _)
        omega
  exact key b.pairs _ hb rfl

theorem coeff_map_shift [CommSemiring R] (l : List (Pair R)) (eb : Pair R) (k : Int) :
    coeff (l.map (fun ea => (⟨eb.ind + ea.ind, eb.val * ea.val⟩ : Pair R))) k
      = coeff l (k - eb.ind) * eb.val := by
  induction l with
  | nil => simp [coeff_nil]
  | cons p t ih =>
    rw [List.map_cons, coeff_cons, coeff_cons, ih, add_mul]
    congr 1
    by_cases h : eb.ind + p.ind = k
    · have h' : p.ind = k - eb.ind := by omega
      rw [if_pos h, if_pos h', mul_comm]
    · have h' : ¬ p.ind = k - eb.ind := by omega
      rw [if_neg h, if_neg h', zero_mul]

theorem coeff_flatMap [AddCommMonoid R] {α : Type} (l : List α) (f : α → List (Pair R))
    (k : Int) : coeff (l.flatMap f) k = (l.map (fun x => coeff (f x) k)).sum := by
  induction l with
  | nil => simp [coeff_nil]
  | cons p t ih => rw [List.flatMap_cons, coeff_append, ih, List.map_cons, List.sum_cons]

/-- The value the raw output of `conv` holds at `k`, as a sum over the entries of `b`. -/
theorem conv_coeff_list [CommSemiring R] (a b : SparseVec R) (k : Int) :
    coeff (conv a b).pairs k
      = (b.pairs.map (fun eb => coeff a.pairs (k - eb.ind) * eb.val)).sum := by
  rw [conv_pairs, coeff_flatMap]
  congr 1
  apply List.map_congr_left
  intro eb _
  exact coeff_map_shift a.pairs eb k

theorem sum_coeff_mul_coeff [CommSemiring R] (la lb : List (Pair R)) (k : Int)
    (S : Finset Int) (hS : ∀ p ∈ la, p.ind ∈ S) :
    (∑ i ∈ S, coeff la i * coeff lb (k - i))
      = (lb.map (fun eb => coeff la (k - eb.ind) * eb.val)).sum := by
  induction lb with
  | nil => simp [coeff_nil]
  | cons eb t ih =>
    rw [List.map_cons, List.sum_cons, ← ih]
    simp only [coeff_cons, mul_add, Finset.sum_add_distrib]
    congr 1
    by_cases hmem : k - eb.ind ∈ S
    · rw [Finset.sum_eq_single (k - eb.ind)]
      · rw [if_pos (by omega)]
      · intro i _ hi
        rw [if_neg (by omega), mul_zero]
      · intro h; exact absurd hmem h
    · have hz : coeff la (k - eb.ind) = 0 := by
        apply coeff_eq_zero_of_not_mem
        intro h
        obtain ⟨p, hp, hpi⟩ := List.mem_map.1 h
        exact hmem (hpi ▸ hS p hp)
      rw [hz, zero_mul]
      apply Finset.sum_eq_zero
      intro i hi
      have : ¬ eb.ind = k - i := by
        intro h
        apply hmem
        have : k - eb.ind = i := by omega
        rw [this]; exact hi
      rw [if_neg this, mul_zero]

theorem conv_mem_ind [Mul R] (a b : SparseVec R) (k : Int) :
    k ∈ (conv a b).pairs.map Pair.ind
      ↔ ∃ pa ∈ a.pairs, ∃ pb ∈ b.pairs, pa.ind + pb.ind = k := by
  rw [conv_pairs]
  simp only [List.mem_map, List.mem_flatMap]
  constructor
  · rintro ⟨p, ⟨eb, heb, ea, hea, rfl⟩, rfl⟩
    exact ⟨ea, hea, eb, heb, by simp [add_comm]⟩
  · rintro ⟨pa, hpa, pb, hpb, rfl⟩
    exact ⟨_, ⟨pb, hpb, pa, hpa, rfl⟩, by simp [add_comm]⟩

/-- C4. For all vectors `a` and `b` (canonical or not) and every index `k`: the value
that `conv(a, b)` holds at `k` after `cleanup()` is the sum over the stored indices `i`
of `a` of `a[i] * b[k - i]`, where `v[j]` is the sum of the contributions `v` stores at
`j`; `k` is stored iff some pair of entries has `ia + ib = k`; a stored entry carries
that value. On the vectors of the demo driver the cleaned-up result is the sequence the
driver prints as the correct one. -/
theorem conv_cleanup_correct :
    (∀ (K : Type) [CommRing K] (a b : SparseVec K) (k : Int),
      coeff (conv a b).cleanup.pairs k
          = ∑ i ∈ (a.pairs.map Pair.ind).toFinset, coeff a.pairs i * coeff b.pairs (k - i)
        ∧ (k ∈ (conv a b).cleanup.pairs.map Pair.ind
            ↔ ∃ pa ∈ a.pairs, ∃ pb ∈ b.pairs, pa.ind + pb.ind = k)
        ∧ ∀ p ∈ (conv a b).cleanup.pairs, p.ind = k →
            p.val = ∑ i ∈ (a.pairs.map Pair.ind).toFinset,
              coeff a.pairs i * coeff b.pairs (k - i))
    ∧ (conv (demoX Complex.I).cleanup (demoY Complex.I).cleanup).cleanup
        = ⟨[⟨1, 41⟩, ⟨2, 14.922 - 42.8 * Complex.I⟩, ⟨3, 26.01 + 13.26 * Complex.I⟩,
            ⟨4, -6.2 + 17.7 * Complex.I⟩, ⟨5, 15.01 + 37.6386 * Complex.I⟩,
            ⟨6, -7.184 + 16.28 * Complex.I⟩, ⟨7, -9.6 + 16 * Complex.I⟩], 8⟩ := by
  constructor
  · intro K _ a b k
    have hsum : coeff (conv a b).cleanup.pairs k
        = ∑ i ∈ (a.pairs.map Pair.ind).toFinset, coeff a.pairs i * coeff b.pairs (k - i) := by
      rw [cleanup_coeff, conv_coeff_list, sum_coeff_mul_coeff]
      intro p hp
      exact List.mem_toFinset.2 (List.mem_map_of_mem _ hp)
    refine ⟨hsum, ?_, ?_⟩
    · rw [cleanup_mem_ind, conv_mem_ind]
    · intro p hp hk
      rw [← hsum, ← hk, coeff_of_mem (cleanup_canonical _) hp]
  · simp only [demoX, demoY, conv, cleanup, sortPairs, cleanupLoop, SparseVec.append, ofLen,
      List.insertionSort, List.orderedInsert, List.foldl, List.nil_append, List.cons_append]
    norm_num [List.insertionSort, List.orderedInsert, cleanupLoop]
    refine ⟨?_, ?_, ?_, ?_, ?_, ?_⟩ <;>
      first
        | (ring_nf; done)
        | (ring_nf; rw [Complex.I_sq]; ring)

/-- C10. When the stored indices of `a` and `b` are non-negative and below the declared
lengths, `conv(a, b)` has declared length exactly `La + Lb - 1` and its raw entry
sequence holds one contribution `(ia + ib, va * vb)` for every pair of an entry of `a`
and an entry of `b` (the entries of `b` in the outer loop), hence
`|a.pairs| * |b.pairs|` entries, and none when an operand has no entries. -/
theorem conv_raw [CommRing R] (a b : SparseVec R)
    (ha : ∀ p ∈ a.pairs, 0 ≤ p.ind ∧ p.ind < a.len)
    (hb : ∀ p ∈ b.pairs, 0 ≤ p.ind ∧ p.ind < b.len) :
    (conv a b).len = a.len + b.len - 1 ∧
    (conv a b).pairs = b.pairs.flatMap (fun eb => a.pairs.map
        (fun ea => (⟨ea.ind + eb.ind, ea.val * eb.val⟩ : Pair R))) ∧
    (conv a b).pairs.length = a.pairs.length * b.pairs.length ∧
    (a.pairs = [] ∨ b.pairs = [] → (conv a b).pairs = []) := by
  have hp : (conv a b).pairs = b.pairs.flatMap (fun eb => a.pairs.map
      (fun ea => (⟨ea.ind + eb.ind, ea.val * eb.val⟩ : Pair R))) := by
    rw [conv_pairs]
    congr 1
    funext eb
    apply List.map_congr_left
    intro ea _
    rw [add_comm, mul_comm]
  have hl : (conv a b).pairs.length = a.pairs.length * b.pairs.length := by
    rw [hp, List.length_flatMap]
    simp only [Function.comp_def, List.length_map, List.map_const', List.sum_replicate,
      smul_eq_mul, mul_comm]
  refine ⟨conv_len a b (fun p h => (ha p h).2) (fun p h => (hb p h).2), hp, hl, ?_⟩
  intro h
  apply List.length_eq_zero.1
  rw [hl]
  rcases h with h | h <;> simp [h]

/-- C10 at the vectors `{(0,1),(1,2)}` of length 2 and `{(0,3)}` of length 1. -/
theorem conv_raw_witness :
    (conv (⟨[⟨0, 1⟩, ⟨1, 2⟩], 2⟩ : SparseVec ℤ) ⟨[⟨0, 3⟩], 1⟩).len = 2 + 1 - 1 ∧
    (conv (⟨[⟨0, 1⟩, ⟨1, 2⟩], 2⟩ : SparseVec ℤ) ⟨[⟨0, 3⟩], 1⟩).pairs
      = [⟨0, 3⟩, ⟨1, 6⟩] := by
  have h := conv_raw (⟨[⟨0, 1⟩, ⟨1, 2⟩], 2⟩ : SparseVec ℤ) ⟨[⟨0, 3⟩], 1⟩
    (by decide) (by decide)
  exact ⟨h.1, by rw [h.2.1]; decide⟩

end Conv

/-! Elementwise product -/

section CwiseMult

/-- C3, at the input where the code departs from it: the vectors `x` and `y` of the
demo driver, for which the driver announces `(1,(5,-10)),(3,(-23.184,11.44))`. After
the entry at index 3 is emitted both iterators are advanced, `it_b` equals
`b.pairs.end()`, and the next test `it_a->ind < it_b->ind` reads through it. -/
theorem cwiseMult_demo_faults :
    cwiseMult (demoX Complex.I).cleanup (demoY Complex.I).cleanup = Res.fault := rfl

end CwiseMult

/-! The transform: splitting and the butterfly loop -/

section Split

theorem foldl_append_len_le {α : Type} (f : α → Int) (g : α → R) (l : List α)
    (v : SparseVec R) (C : Int) (hv : v.len ≤ C) (h : ∀ p ∈ l, f p + 1 ≤ C) :
    (l.foldl (fun out p => out.append (f p) (g p)) v).len ≤ C := by
  induction l generalizing v with
  | nil => simpa using hv
  | cons p t ih =>
    rw [List.foldl_cons]
    apply ih
    · have := h p (List.mem_cons_self _ _)
      unfold SparseVec.append
      simp only
      split <;> omega
    · intro q hq
      exact h q (List.mem_cons_of_mem _ hq)

/-- The first loop of `fft` as two independent loops over the entries of even and of
odd index. -/
theorem splitLoop_eq (ps : List (Pair R)) (x_even x_odd : SparseVec R) :
    splitLoop ps x_even x_odd =
      ((ps.filter (fun p => decide (p.ind.tmod 2 = 0))).foldl
          (fun out p => out.append (p.ind.tdiv 2) p.val) x_even,
       (ps.filter (fun p => !decide (p.ind.tmod 2 = 0))).foldl
          (fun out p => out.append ((p.ind - 1).tdiv 2) p.val) x_odd) := by
  unfold splitLoop
  induction ps generalizing x_even x_odd with
  | nil => rfl
  | cons p t ih =>
    rw [List.foldl_cons]
    by_cases h : p.ind.tmod 2 = 0
    · rw [if_pos h, ih]
      simp [List.filter_cons, h]
    · rw [if_neg h, ih]
      simp [List.filter_cons, h]

theorem splitLoop_fst_pairs (ps : List (Pair R)) (m : Int) :
    (splitLoop ps (ofLen m) (ofLen m)).1.pairs = evenPart ps := by
  rw [splitLoop_eq]
  simp only
  rw [foldl_append_pairs (fun p : Pair R => p.ind.tdiv 2) (fun p : Pair R => p.val)]
  simp [ofLen, evenPart]

theorem splitLoop_snd_pairs (ps : List (Pair R)) (m : Int) :
    (splitLoop ps (ofLen m) (ofLen m)).2.pairs = oddPart ps := by
  rw [splitLoop_eq]
  simp only
  rw [foldl_append_pairs (fun p : Pair R => (p.ind - 1).tdiv 2) (fun p : Pair R => p.val)]
  simp [ofLen, oddPart]

theorem splitLoop_fst_len_ge (ps : List (Pair R)) (m : Int) :
    m ≤ (splitLoop ps (ofLen m) (ofLen m)).1.len := by
  rw [splitLoop_eq]
  exact foldl_append_len_ge (fun p : Pair R => p.ind.tdiv 2) (fun p : Pair R => p.val) _ _

theorem splitLoop_snd_len_ge (ps : List (Pair R)) (m : Int) :
    m ≤ (splitLoop ps (ofLen m) (ofLen m)).2.len := by
  rw [splitLoop_eq]
  exact foldl_append_len_ge (fun p : Pair R => (p.ind - 1).tdiv 2)
    (fun p : Pair R => p.val) _ _

theorem tdiv_two_le (i C : Int) (hC : 2 ≤ C) (hi : i < C) : i.tdiv 2 + 1 ≤ C - 1 := by
  rcases le_or_lt 0 i with h | h
  · rw [Int.tdiv_eq_ediv h (by norm_num)]
    omega
  · have h1 : i.tdiv 2 = -((-i).tdiv 2) := by
      rw [Int.neg_tdiv, neg_neg]
    rw [h1, Int.tdiv_eq_ediv (by omega) (by norm_num)]
    omega

theorem splitLoop_fst_len_le (ps : List (Pair R)) (m C : Int) (hC : 2 ≤ C)
    (hm : m ≤ C - 1) (h : ∀ p ∈ ps, p.ind < C) :
    (splitLoop ps (ofLen m) (ofLen m)).1.len ≤ C - 1 := by
  rw [splitLoop_eq]
  apply foldl_append_len_le (fun p : Pair R => p.ind.tdiv 2) (fun p : Pair R => p.val)
  · exact hm
  · intro p hp
    exact tdiv_two_le _ _ hC (h p (List.mem_of_mem_filter hp))

theorem splitLoop_snd_len_le (ps : List (Pair R)) (m C : Int) (hC : 2 ≤ C)
    (hm : m ≤ C - 1) (h : ∀ p ∈ ps, p.ind < C) :
    (splitLoop ps (ofLen m) (ofLen m)).2.len ≤ C - 1 := by
  rw [splitLoop_eq]
  apply foldl_append_len_le (fun p : Pair R => (p.ind - 1).tdiv 2) (fun p : Pair R => p.val)
  · exact hm
  · intro p hp
    have := h p (List.mem_of_mem_filter hp)
    exact tdiv_two_le _ _ hC (by omega)

theorem evenPart_ind_lt (ps : List (Pair R)) (C : Int) (hC : 2 ≤ C)
    (h : ∀ p ∈ ps, p.ind < C) : ∀ q ∈ evenPart ps, q.ind < C - 1 := by
  intro q hq
  obtain ⟨p, hp, rfl⟩ := List.mem_map.1 hq
  have := tdiv_two_le p.ind C hC (h p (List.mem_of_mem_filter hp))
  simp only
  omega

theorem oddPart_ind_lt (ps : List (Pair R)) (C : Int) (hC : 2 ≤ C)
    (h : ∀ p ∈ ps, p.ind < C) : ∀ q ∈ oddPart ps, q.ind < C - 1 := by
  intro q hq
  obtain ⟨p, hp, rfl⟩ := List.mem_map.1 hq
  have h1 := h p (List.mem_of_mem_filter hp)
  have := tdiv_two_le (p.ind - 1) C hC (by omega)
  simp only
  omega

end Split

section Butterfly

theorem _get_ne_outOfFuel [Zero R] (l : List (Pair R)) (i : Int) :
    ∀ (fuel : Nat) (n1 n2 : Int), 0 ≤ n1 → (n2 + 1 - n1).toNat < fuel →
      _get l i fuel n1 n2 ≠ Res.outOfFuel := by
  intro fuel
  induction fuel with
  | zero => intro n1 n2 _ hf; omega
  | succ fuel ih =>
    intro n1 n2 h0 hf
    unfold _get
    by_cases hlt : n2 < n1
    · rw [if_pos hlt]; exact fun h => Res.noConfusion h
    · rw [if_neg hlt]
      have hm : (n1 + n2).tdiv 2 = (n1 + n2) / 2 := Int.tdiv_eq_ediv (by omega) (by norm_num)
      simp only [hm]
      cases hr : readAt l ((n1 + n2) / 2) with
      | none => exact fun h => Res.noConfusion h
      | some p =>
        simp only
        split
        · exact fun h => Res.noConfusion h
        · split
          · exact ih _ _ (by omega) (by omega)
          · split
            · exact ih _ _ h0 (by omega)
            · exact fun h => Res.noConfusion h

theorem get_ne_outOfFuel [Zero R] (v : SparseVec R) (i : Int) :
    v.get i ≠ Res.outOfFuel := by
  unfold SparseVec.get
  split
  · exact fun h => Res.noConfusion h
  · exact _get_ne_outOfFuel _ _ _ _ _ (le_refl _) (by omega)

variable [CommRing R]

/-- The second loop of `fft` when every lookup succeeds. -/
theorem butterflyLoop_ok (w : R) (m : Int) (ce co : SparseVec R) (fe fo : Nat → R)
    (ks : List Nat) (out : SparseVec R)
    (he : ∀ k ∈ ks, ce.get ((k : Int).tmod m) = Res.ok (fe k))
    (ho : ∀ k ∈ ks, co.get ((k : Int).tmod m) = Res.ok (fo k)) :
    butterflyLoop w m ce co ks out
      = Res.ok (ks.foldl (fun out k => out.append (k : Int) (fe k + fo k * w ^ k)) out) := by
  induction ks generalizing out with
  | nil => rfl
  | cons k t ih =>
    unfold butterflyLoop
    rw [he k (List.mem_cons_self _ _), ho k (List.mem_cons_self _ _)]
    simp only [Res.bind, List.foldl_cons]
    exact ih _ (fun j hj => he j (List.mem_cons_of_mem _ hj))
      (fun j hj => ho j (List.mem_cons_of_mem _ hj))

/-- The second loop of `fft` never runs out of fuel, and when it returns it has appended
one entry for every value of `k`, in order. -/
theorem butterflyLoop_shape (w : R) (m : Int) (ce co : SparseVec R)
    (ks : List Nat) (out : SparseVec R) :
    butterflyLoop w m ce co ks out = Res.fault ∨
    ∃ r, butterflyLoop w m ce co ks out = Res.ok r ∧
      r.pairs.map Pair.ind = out.pairs.map Pair.ind ++ ks.map (fun k => (k : Int)) := by
  induction ks generalizing out with
  | nil => exact Or.inr ⟨out, rfl, by simp⟩
  | cons k t ih =>
    unfold butterflyLoop
    cases h1 : ce.get ((k : Int).tmod m) with
    | fault => exact Or.inl rfl
    | outOfFuel => exact absurd h1 (get_ne_outOfFuel _ _)
    | ok e =>
      cases h2 : co.get ((k : Int).tmod m) with
      | fault => exact Or.inl rfl
      | outOfFuel => exact absurd h2 (get_ne_outOfFuel _ _)
      | ok o =>
        simp only [Res.bind]
        rcases ih (out.append (k : Int) (e + o * w ^ k)) with h | ⟨r, hr, hp⟩
        · exact Or.inl h
        · refine Or.inr ⟨r, hr, ?_⟩
          rw [hp]
          simp [SparseVec.append]

end Butterfly

/-! Termination of the transform -/

section Termination

variable [CommRing R]

/-- On the vector without entries and of declared length 0 every call of `fft` calls
`fft` on the same vector again: no amount of fuel suffices. -/
theorem fft_empty_outOfFuel (omega : Int → R) (fuel : Nat) :
    fft omega fuel (⟨[], 0⟩ : SparseVec R) = Res.outOfFuel := by
  induction fuel with
  | zero => rfl
  | succ fuel ih =>
    unfold fft
    have h : splitLoop ([] : List (Pair R)) (ofLen ((0 : Int).tdiv 2)) (ofLen ((0 : Int).tdiv 2))
        = ((⟨[], 0⟩ : SparseVec R), (⟨[], 0⟩ : SparseVec R)) := rfl
    simp only [h, ih, Res.bind]
    rfl

/-- With declared length at least 1 the recursion of `fft` is well-founded: a bound `B`
on the declared length and on the stored indices is enough fuel. -/
theorem fft_ne_outOfFuel (omega : Int → R) :
    ∀ (fuel : Nat) (x : SparseVec R) (B : Int), 1 ≤ x.len → x.len ≤ B →
      (∀ p ∈ x.pairs, p.ind < B) → B ≤ fuel →
      fft omega fuel x ≠ Res.outOfFuel := by
  intro fuel
  induction fuel with
  | zero => intro x B h1 h2 _ h4; omega
  | succ fuel ih =>
    intro x B h1 h2 h3 h4
    unfold fft
    simp only
    by_cases hn : x.len = 1
    · rw [if_pos hn]; exact fun h => Res.noConfusion h
    · rw [if_neg hn]
      have hm : x.len.tdiv 2 = x.len / 2 := Int.tdiv_eq_ediv (by omega) (by norm_num)
      have hB : 2 ≤ B := by omega
      have he := ih (splitLoop x.pairs (ofLen (x.len.tdiv 2)) (ofLen (x.len.tdiv 2))).1 (B - 1)
        (le_trans (by omega) (splitLoop_fst_len_ge _ _))
        (splitLoop_fst_len_le _ _ _ hB (by omega) h3)
        (by rw [splitLoop_fst_pairs]; exact evenPart_ind_lt _ _ hB h3) (by omega)
      have ho := ih (splitLoop x.pairs (ofLen (x.len.tdiv 2)) (ofLen (x.len.tdiv 2))).2 (B - 1)
        (le_trans (by omega) (splitLoop_snd_len_ge _ _))
        (splitLoop_snd_len_le _ _ _ hB (by omega) h3)
        (by rw [splitLoop_snd_pairs]; exact oddPart_ind_lt _ _ hB h3) (by omega)
      cases h5 : fft omega fuel (splitLoop x.pairs (ofLen (x.len.tdiv 2))
          (ofLen (x.len.tdiv 2))).1 with
      | outOfFuel => exact absurd h5 he
      | fault => exact fun h => Res.noConfusion h
      | ok ce =>
        cases h6 : fft omega fuel (splitLoop x.pairs (ofLen (x.len.tdiv 2))
            (ofLen (x.len.tdiv 2))).2 with
        | outOfFuel => exact absurd h6 ho
        | fault => exact fun h => Res.noConfusion h
        | ok co =>
          simp only [Res.bind]
          rcases butterflyLoop_shape (omega x.len) (x.len.tdiv 2) ce co
            (List.range x.len.toNat) (ofLen x.len) with h | ⟨r, hr, _⟩
          · rw [h]; exact fun h => Res.noConfusion h
          · rw [hr]; exact fun h => Res.noConfusion h

end Termination

/-! The transform on canonical vectors of power-of-two length -/

section Transform

variable [CommRing R]

theorem sum_range_two_mul (g : Nat → R) (m : Nat) :
    ∑ j ∈ Finset.range (2 * m), g j
      = ∑ j ∈ Finset.range m, g (2 * j) + ∑ j ∈ Finset.range m, g (2 * j + 1) := by
  induction m with
  | zero => simp
  | succ m ih =>
    rw [show 2 * (m + 1) = 2 * m + 1 + 1 by ring, Finset.sum_range_succ, Finset.sum_range_succ,
      ih, Finset.sum_range_succ, Finset.sum_range_succ]
    abel

/-- The butterfly identity of the radix-2 transform. -/
theorem dft_butterfly (w : R) (m : Nat) (hw : (w ^ 2) ^ m = 1) (f : Nat → R) (k : Nat) :
    (∑ j ∈ Finset.range m, f (2 * j) * (w ^ 2) ^ (j * (k % m)))
        + (∑ j ∈ Finset.range m, f (2 * j + 1) * (w ^ 2) ^ (j * (k % m))) * w ^ k
      = ∑ j ∈ Finset.range (2 * m), f j * w ^ (j * k) := by
  have hk : ∀ j : Nat, (w ^ 2) ^ (j * (k % m)) = w ^ (2 * j * k) := by
    intro j
    rw [mul_comm j, pow_mul, ← pow_eq_pow_mod k hw, ← pow_mul, ← pow_mul]
    congr 1
    ring
  rw [sum_range_two_mul, Finset.sum_mul]
  congr 1
  · apply Finset.sum_congr rfl
    intro j _
    rw [hk]
  · apply Finset.sum_congr rfl
    intro j _
    rw [hk, mul_assoc, ← pow_add]
    congr 2
    ring

theorem coeff_evenPart (ps : List (Pair R)) (h : ∀ p ∈ ps, 0 ≤ p.ind) (j : Int) :
    coeff (evenPart ps) j = coeff ps (2 * j) := by
  induction ps with
  | nil => rfl
  | cons p t ih =>
    have h0 := h p (List.mem_cons_self _ _)
    have iht := ih (fun q hq => h q (List.mem_cons_of_mem _ hq))
    have hd : p.ind.tdiv 2 = p.ind / 2 := Int.tdiv_eq_ediv h0 (by norm_num)
    have hmod : p.ind.tmod 2 = p.ind % 2 := Int.tmod_eq_emod h0 (by norm_num)
    unfold evenPart at iht ⊢
    by_cases hp : p.ind.tmod 2 = 0
    · rw [List.filter_cons_of_pos (by simpa using hp), List.map_cons, coeff_cons, coeff_cons, iht]
      congr 1
      simp only [hd]
      by_cases hj : p.ind / 2 = j
      · rw [if_pos hj, if_pos (by omega)]
      · rw [if_neg hj, if_neg (by omega)]
    · rw [List.filter_cons_of_neg (by simpa using hp), coeff_cons, iht, if_neg (by omega),
        zero_add]

theorem coeff_oddPart (ps : List (Pair R)) (h : ∀ p ∈ ps, 0 ≤ p.ind) (j : Int) :
    coeff (oddPart ps) j = coeff ps (2 * j + 1) := by
  induction ps with
  | nil => rfl
  | cons p t ih =>
    have h0 := h p (List.mem_cons_self _ _)
    have iht := ih (fun q hq => h q (List.mem_cons_of_mem _ hq))
    have hmod : p.ind.tmod 2 = p.ind % 2 := Int.tmod_eq_emod h0 (by norm_num)
    unfold oddPart at iht ⊢
    by_cases hp : p.ind.tmod 2 = 0
    · rw [List.filter_cons_of_neg (by simpa using hp), coeff_cons, iht, if_neg (by omega),
        zero_add]
    · have hd : (p.ind - 1).tdiv 2 = (p.ind - 1) / 2 :=
        Int.tdiv_eq_ediv (by omega) (by norm_num)
      rw [List.filter_cons_of_pos (by simpa using hp), List.map_cons, coeff_cons, coeff_cons, iht]
      congr 1
      simp only [hd]
      by_cases hj : (p.ind - 1) / 2 = j
      · rw [if_pos hj, if_pos (by omega)]
      · rw [if_neg hj, if_neg (by omega)]

omit [CommRing R] in
theorem canonical_iff_pairwise (l : List (Pair R)) :
    Canonical l ↔ l.Pairwise (fun a b => a.ind < b.ind) := by
  unfold Canonical List.Sorted
  exact List.pairwise_map

omit [CommRing R] in
theorem evenPart_canonical (ps : List (Pair R)) (hc : Canonical ps)
    (h : ∀ p ∈ ps, 0 ≤ p.ind) : Canonical (evenPart ps) := by
  rw [canonical_iff_pairwise] at hc ⊢
  unfold evenPart
  rw [List.pairwise_map]
  apply (List.Pairwise.and_mem.1 (hc.filter _)).imp
  rintro a b ⟨ha, hb, hab⟩
  have ha' := List.mem_filter.1 ha
  have hb' := List.mem_filter.1 hb
  have h1 : a.ind.tmod 2 = 0 := by simpa using ha'.2
  have h2 : b.ind.tmod 2 = 0 := by simpa using hb'.2
  have ha0 := h a ha'.1
  have hb0 := h b hb'.1
  rw [Int.tmod_eq_emod ha0 (by norm_num)] at h1
  rw [Int.tmod_eq_emod hb0 (by norm_num)] at h2
  simp only [Int.tdiv_eq_ediv ha0 (show (0 : Int) ≤ 2 by norm_num),
    Int.tdiv_eq_ediv hb0 (show (0 : Int) ≤ 2 by norm_num)]
  omega

omit [CommRing R] in
theorem oddPart_canonical (ps : List (Pair R)) (hc : Canonical ps)
    (h : ∀ p ∈ ps, 0 ≤ p.ind) : Canonical (oddPart ps) := by
  rw [canonical_iff_pairwise] at hc ⊢
  unfold oddPart
  rw [List.pairwise_map]
  apply (List.Pairwise.and_mem.1 (hc.filter _)).imp
  rintro a b ⟨ha, hb, hab⟩
  have ha' := List.mem_filter.1 ha
  have hb' := List.mem_filter.1 hb
  have h1 : ¬ a.ind.tmod 2 = 0 := by simpa using ha'.2
  have h2 : ¬ b.ind.tmod 2 = 0 := by simpa using hb'.2
  have ha0 := h a ha'.1
  have hb0 := h b hb'.1
  rw [Int.tmod_eq_emod ha0 (by norm_num)] at h1
  rw [Int.tmod_eq_emod hb0 (by norm_num)] at h2
  simp only [Int.tdiv_eq_ediv (show (0 : Int) ≤ a.ind - 1 by omega) (show (0 : Int) ≤ 2 by norm_num),
    Int.tdiv_eq_ediv (show (0 : Int) ≤ b.ind - 1 by omega) (show (0 : Int) ≤ 2 by norm_num)]
  omega

omit [CommRing R] in
theorem evenPart_range (ps : List (Pair R)) (m : Int)
    (h : ∀ p ∈ ps, 0 ≤ p.ind ∧ p.ind < 2 * m) :
    ∀ q ∈ evenPart ps, 0 ≤ q.ind ∧ q.ind < m := by
  intro q hq
  obtain ⟨p, hp, rfl⟩ := List.mem_map.1 hq
  have hp' := List.mem_filter.1 hp
  have := h p hp'.1
  simp only [Int.tdiv_eq_ediv this.1 (show (0 : Int) ≤ 2 by norm_num)]
  omega

omit [CommRing R] in
theorem oddPart_range (ps : List (Pair R)) (m : Int)
    (h : ∀ p ∈ ps, 0 ≤ p.ind ∧ p.ind < 2 * m) :
    ∀ q ∈ oddPart ps, 0 ≤ q.ind ∧ q.ind < m := by
  intro q hq
  obtain ⟨p, hp, rfl⟩ := List.mem_map.1 hq
  have hp' := List.mem_filter.1 hp
  have h1 : ¬ p.ind.tmod 2 = 0 := by simpa using hp'.2
  have := h p hp'.1
  rw [Int.tmod_eq_emod this.1 (by norm_num)] at h1
  simp only [Int.tdiv_eq_ediv (show (0 : Int) ≤ p.ind - 1 by omega) (show (0 : Int) ≤ 2 by norm_num)]
  omega

theorem get_eq_coeff (v : SparseVec R) (hc : Canonical v.pairs) (i : Int)
    (h : v.pairs = [] ∨ ∃ p ∈ v.pairs, i ≤ p.ind) :
    v.get i = Res.ok (coeff v.pairs i) := by
  rw [get_canonical v hc]
  by_cases hl : v.pairs.length = 0
  · rw [if_pos hl, List.length_eq_zero.1 hl, coeff_nil]
  · rw [if_neg hl]
    rcases h with h | ⟨p, hp, hpi⟩
    · exact absurd (by rw [h]; rfl) hl
    · rw [if_neg]
      intro hall
      have := hall p hp
      omega

omit [CommRing R] in
theorem map_range_ind (g : Nat → R) (n : Nat) :
    ((List.range n).map (fun k : Nat => (⟨(k : Int), g k⟩ : Pair R))).map Pair.ind
      = (List.range n).map (fun k : Nat => (k : Int)) := by
  rw [List.map_map]
  rfl

omit [CommRing R] in
theorem canonical_map_range (g : Nat → R) (n : Nat) :
    Canonical ((List.range n).map (fun k : Nat => (⟨(k : Int), g k⟩ : Pair R))) := by
  rw [canonical_iff_pairwise, List.pairwise_map]
  exact (List.pairwise_lt_range n).imp (fun h => by simpa using h)

theorem coeff_map_range (g : Nat → R) (n k : Nat) (hk : k < n) :
    coeff ((List.range n).map (fun k : Nat => (⟨(k : Int), g k⟩ : Pair R))) (k : Int) = g k := by
  have hmem : (⟨(k : Int), g k⟩ : Pair R)
      ∈ (List.range n).map (fun k : Nat => (⟨(k : Int), g k⟩ : Pair R)) :=
    List.mem_map.2 ⟨k, List.mem_range.2 hk, rfl⟩
  exact coeff_of_mem (canonical_map_range g n) hmem

theorem get_map_range (g : Nat → R) (n k : Nat) (hk : k < n) (len : Int) :
    SparseVec.get ⟨(List.range n).map (fun k : Nat => (⟨(k : Int), g k⟩ : Pair R)), len⟩ (k : Int)
      = Res.ok (g k) := by
  rw [get_eq_coeff _ (canonical_map_range g n), coeff_map_range g n k hk]
  right
  exact ⟨⟨(k : Int), g k⟩, List.mem_map.2 ⟨k, List.mem_range.2 hk, rfl⟩, le_refl _⟩

omit [CommRing R] in
theorem butterfly_out (g : Nat → R) (n : Nat) (L : Int) (hL : L = (n : Int)) :
    (List.range n).foldl (fun out (k : Nat) => out.append (k : Int) (g k))
        (ofLen L : SparseVec R)
      = ⟨(List.range n).map (fun k : Nat => (⟨(k : Int), g k⟩ : Pair R)), L⟩ := by
  have h1 := foldl_append_pairs (fun k : Nat => (k : Int)) g (List.range n)
    (ofLen L : SparseVec R)
  have h2 := foldl_append_len_of_lt (fun k : Nat => (k : Int)) g (List.range n)
    (ofLen L : SparseVec R)
    (by intro k hk; have := List.mem_range.1 hk; simp only [ofLen]; omega)
  cases h : (List.range n).foldl (fun out (k : Nat) => out.append (k : Int) (g k))
      (ofLen L : SparseVec R) with
  | mk ps l =>
    rw [h] at h1 h2
    simp only [ofLen, List.nil_append] at h1 h2
    rw [h1, h2]

omit [CommRing R] in
theorem two_pow_facts (e : Nat) :
    (0 : Int) < (2 : Int) ^ e ∧ ((2 : Int) ^ (e + 1)).tdiv 2 = (2 : Int) ^ e ∧
    ((2 : Int) ^ e).toNat = 2 ^ e ∧ (2 : Int) ^ (e + 1) = 2 * (2 : Int) ^ e := by
  have h0 : (0 : Int) < (2 : Int) ^ e := by positivity
  have h1 : (2 : Int) ^ (e + 1) = 2 * (2 : Int) ^ e := by ring
  refine ⟨h0, ?_, ?_, h1⟩
  · rw [Int.tdiv_eq_ediv (by positivity) (by norm_num), h1]
    omega
  · have : (2 : Int) ^ e = ((2 ^ e : Nat) : Int) := by push_cast; rfl
    rw [this, Int.toNat_natCast]

omit [CommRing R] in
theorem tmod_two_pow (k e : Nat) :
    (k : Int).tmod ((2 : Int) ^ e) = ((k % 2 ^ e : Nat) : Int) := by
  rw [Int.tmod_eq_emod (by positivity) (by positivity)]
  push_cast
  rfl

/-- The transform of a canonical vector of length `2 ^ e` with indices inside the
length: it returns, the output has the same declared length, for `e = 0` it is the input
and for `e ≥ 1` it stores the discrete Fourier transform at the indices `0 .. n-1` in
this order, obtained by the butterfly from the transforms of the two halves; every
lookup below the length succeeds in it. -/
theorem fft_pow2 (omega : Int → R) (hω : RootFamily omega) :
    ∀ (e fuel : Nat) (x : SparseVec R), e < fuel → x.len = (2 : Int) ^ e →
      Canonical x.pairs → (∀ p ∈ x.pairs, 0 ≤ p.ind ∧ p.ind < x.len) →
      ∃ out, fft omega fuel x = Res.ok out ∧ out.len = x.len ∧
        (e = 0 → out = x) ∧
        (1 ≤ e → out.pairs = (List.range (2 ^ e)).map
          (fun k : Nat => (⟨(k : Int), dftSum (omega x.len) (2 ^ e) x.pairs k⟩ : Pair R))) ∧
        (∀ k : Nat, k < 2 ^ e →
          coeff out.pairs (k : Int) = dftSum (omega x.len) (2 ^ e) x.pairs k) ∧
        (∀ k : Nat, k < 2 ^ e → out.get (k : Int) = Res.ok (coeff out.pairs (k : Int))) ∧
        (1 ≤ e → ∃ E O,
          fft omega (fuel - 1)
            (splitLoop x.pairs (ofLen (x.len.tdiv 2)) (ofLen (x.len.tdiv 2))).1 = Res.ok E ∧
          fft omega (fuel - 1)
            (splitLoop x.pairs (ofLen (x.len.tdiv 2)) (ofLen (x.len.tdiv 2))).2 = Res.ok O ∧
          out.pairs = (List.range (2 ^ e)).map (fun k : Nat =>
            (⟨(k : Int), coeff E.pairs ((k % 2 ^ (e - 1) : Nat) : Int)
              + coeff O.pairs ((k % 2 ^ (e - 1) : Nat) : Int) * omega x.len ^ k⟩ : Pair R))) := by
  intro e
  induction e with
  | zero =>
    intro fuel x hf hlen hc hr
    obtain ⟨f, rfl⟩ : ∃ f, fuel = f + 1 := ⟨fuel - 1, by omega⟩
    have hlen1 : x.len = 1 := by simpa using hlen
    refine ⟨x, ?_, rfl, fun _ => rfl, fun h => absurd h (by omega), ?_, ?_,
      fun h => absurd h (by omega)⟩
    · unfold fft
      simp [hlen1]
    · intro k hk
      have hk0 : k = 0 := by omega
      subst hk0
      simp [dftSum]
    · intro k hk
      have hk0 : k = 0 := by omega
      subst hk0
      apply get_eq_coeff _ hc
      cases hp : x.pairs with
      | nil => exact Or.inl rfl
      | cons p t =>
        right
        refine ⟨p, List.mem_cons_self _ _, ?_⟩
        have := (hr p (by rw [hp]; exact List.mem_cons_self _ _)).1
        simpa using this
  | succ e ih =>
    intro fuel x hf hlen hc hr
    obtain ⟨f, rfl⟩ : ∃ f, fuel = f + 1 := ⟨fuel - 1, by omega⟩
    obtain ⟨hpos, htdiv, _, hdouble⟩ := two_pow_facts e
    obtain ⟨_, _, htoNat, _⟩ := two_pow_facts (e + 1)
    have hm : x.len.tdiv 2 = (2 : Int) ^ e := by rw [hlen, htdiv]
    have hne : x.len ≠ 1 := by rw [hlen, hdouble]; omega
    have hr0 : ∀ p ∈ x.pairs, 0 ≤ p.ind := fun p hp => (hr p hp).1
    have hr2 : ∀ p ∈ x.pairs, 0 ≤ p.ind ∧ p.ind < 2 * (2 : Int) ^ e := by
      intro p hp
      have := hr p hp
      rw [hlen, hdouble] at this
      exact this
    -- the two halves
    have hxe : (splitLoop x.pairs (ofLen ((2 : Int) ^ e)) (ofLen ((2 : Int) ^ e))).1
        = ⟨evenPart x.pairs, (2 : Int) ^ e⟩ := by
      have h1 := splitLoop_fst_pairs x.pairs ((2 : Int) ^ e)
      have h2 : (splitLoop x.pairs (ofLen ((2 : Int) ^ e)) (ofLen ((2 : Int) ^ e))).1.len
          = (2 : Int) ^ e := by
        rw [splitLoop_eq]
        simp only
        rw [foldl_append_len_of_lt (fun p : Pair R => p.ind.tdiv 2) (fun p : Pair R => p.val)]
        · rfl
        · intro p hp
          exact (evenPart_range x.pairs _ hr2 ⟨p.ind.tdiv 2, p.val⟩
            (List.mem_map.2 ⟨p, hp, rfl⟩)).2
      cases h : (splitLoop x.pairs (ofLen ((2 : Int) ^ e)) (ofLen ((2 : Int) ^ e))).1 with
      | mk ps l => rw [h] at h1 h2; simp only at h1 h2; rw [h1, h2]
    have hxo : (splitLoop x.pairs (ofLen ((2 : Int) ^ e)) (ofLen ((2 : Int) ^ e))).2
        = ⟨oddPart x.pairs, (2 : Int) ^ e⟩ := by
      have h1 := splitLoop_snd_pairs x.pairs ((2 : Int) ^ e)
      have h2 : (splitLoop x.pairs (ofLen ((2 : Int) ^ e)) (ofLen ((2 : Int) ^ e))).2.len
          = (2 : Int) ^ e := by
        rw [splitLoop_eq]
        simp only
        rw [foldl_append_len_of_lt (fun p : Pair R => (p.ind - 1).tdiv 2)
          (fun p : Pair R => p.val)]
        · rfl
        · intro p hp
          exact (oddPart_range x.pairs _ hr2 ⟨(p.ind - 1).tdiv 2, p.val⟩
            (List.mem_map.2 ⟨p, hp, rfl⟩)).2
      cases h : (splitLoop x.pairs (ofLen ((2 : Int) ^ e)) (ofLen ((2 : Int) ^ e))).2 with
      | mk ps l => rw [h] at h1 h2; simp only at h1 h2; rw [h1, h2]
    obtain ⟨E, hE, hElen, -, -, hEc, hEg, -⟩ := ih f ⟨evenPart x.pairs, (2 : Int) ^ e⟩
      (by omega) rfl (evenPart_canonical _ hc hr0) (evenPart_range _ _ hr2)
    obtain ⟨O, hO, hOlen, -, -, hOc, hOg, -⟩ := ih f ⟨oddPart x.pairs, (2 : Int) ^ e⟩
      (by omega) rfl (oddPart_canonical _ hc hr0) (oddPart_range _ _ hr2)
    simp only at hEc hOc
    have hmod : ∀ k : Nat, k % 2 ^ e < 2 ^ e := fun k => Nat.mod_lt _ (by positivity)
    -- the value the butterfly stores at `k` is the transform of `x` at `k`
    have hval : ∀ k : Nat,
        coeff E.pairs ((k % 2 ^ e : Nat) : Int)
          + coeff O.pairs ((k % 2 ^ e : Nat) : Int) * omega x.len ^ k
        = dftSum (omega x.len) (2 ^ (e + 1)) x.pairs k := by
      intro k
      rw [hEc _ (hmod k), hOc _ (hmod k)]
      have hw2 : omega x.len ^ 2 = omega ((2 : Int) ^ e) := by rw [hlen]; exact (hω e).2
      have hw1 : (omega x.len ^ 2) ^ (2 ^ e) = 1 := by rw [hw2]; exact (hω e).1
      have := dft_butterfly (omega x.len) (2 ^ e) hw1 (fun j => coeff x.pairs (j : Int)) k
      unfold dftSum
      rw [show 2 ^ (e + 1) = 2 * 2 ^ e by ring, ← this, hw2]
      congr 1
      · apply Finset.sum_congr rfl
        intro j _
        rw [coeff_evenPart _ hr0]
        push_cast
        rfl
      · congr 1
        apply Finset.sum_congr rfl
        intro j _
        rw [coeff_oddPart _ hr0]
        push_cast
        rfl
    have hfft : fft omega (f + 1) x
        = Res.ok ⟨(List.range (2 ^ (e + 1))).map (fun k : Nat =>
            (⟨(k : Int), coeff E.pairs ((k % 2 ^ e : Nat) : Int)
              + coeff O.pairs ((k % 2 ^ e : Nat) : Int) * omega x.len ^ k⟩ : Pair R)),
            x.len⟩ := by
      unfold fft
      simp only
      rw [if_neg hne, hm, hxe, hxo, hE, hO]
      simp only [Res.bind]
      rw [butterflyLoop_ok (omega x.len) ((2 : Int) ^ e) E O
        (fun k => coeff E.pairs ((k % 2 ^ e : Nat) : Int))
        (fun k => coeff O.pairs ((k % 2 ^ e : Nat) : Int))]
      · rw [hlen, htoNat]
        rw [butterfly_out (fun k : Nat => coeff E.pairs ((k % 2 ^ e : Nat) : Int)
          + coeff O.pairs ((k % 2 ^ e : Nat) : Int) * omega ((2 : Int) ^ (e + 1)) ^ k)
          (2 ^ (e + 1)) ((2 : Int) ^ (e + 1)) (by push_cast; rfl)]
      · intro k _
        rw [tmod_two_pow]
        exact hEg _ (hmod k)
      · intro k _
        rw [tmod_two_pow]
        exact hOg _ (hmod k)
    have hpairs : (List.range (2 ^ (e + 1))).map (fun k : Nat =>
            (⟨(k : Int), coeff E.pairs ((k % 2 ^ e : Nat) : Int)
              + coeff O.pairs ((k % 2 ^ e : Nat) : Int) * omega x.len ^ k⟩ : Pair R))
        = (List.range (2 ^ (e + 1))).map (fun k : Nat =>
            (⟨(k : Int), dftSum (omega x.len) (2 ^ (e + 1)) x.pairs k⟩ : Pair R)) := by
      apply List.map_congr_left
      intro k _
      rw [hval]
    refine ⟨_, hfft, rfl, fun h => absurd h (by omega), fun _ => hpairs, ?_, ?_, ?_⟩
    · intro k hk
      simp only
      rw [hpairs, coeff_map_range _ _ _ hk]
    · intro k hk
      simp only
      rw [hpairs, get_map_range _ _ _ hk, coeff_map_range _ _ _ hk]
    · intro _
      refine ⟨E, O, ?_, ?_, ?_⟩
      · simp only [Nat.add_sub_cancel]
        rw [hm, hxe]; exact hE
      · simp only [Nat.add_sub_cancel]
        rw [hm, hxo]; exact hO
      · simp only [Nat.add_sub_cancel]

end Transform

/-! The root of unity of the source over the complex numbers -/

section ComplexRoot

/-- The roots `std::exp(-2 * PI / n * I)` form a root family. -/
theorem complex_rootFamily :
    RootFamily (fun n : Int => Complex.exp (-2 * (Real.pi : ℂ) / (n : ℂ) * Complex.I)) := by
  intro e
  have h2 : ((2 : ℂ) ^ e) ≠ 0 := pow_ne_zero _ two_ne_zero
  constructor
  · simp only
    rw [← Complex.exp_nat_mul]
    have : ((2 ^ e : Nat) : ℂ) * (-2 * (Real.pi : ℂ) / (((2 : Int) ^ e : Int) : ℂ) * Complex.I)
        = -(2 * (Real.pi : ℂ) * Complex.I) := by
      push_cast
      field_simp
      ring
    rw [this, Complex.exp_neg, Complex.exp_two_pi_mul_I, inv_one]
  · simp only
    rw [← Complex.exp_nat_mul]
    congr 1
    push_cast
    field_simp
    ring

/-- The root `std::exp(-2 * PI / n * I)` is a primitive `n`-th root of unity. -/
theorem complex_root_primitive (n : Nat) (hn : n ≠ 0) :
    IsPrimitiveRoot (Complex.exp (-2 * (Real.pi : ℂ) / ((n : Int) : ℂ) * Complex.I)) n := by
  have h := (Complex.isPrimitiveRoot_exp n hn).inv
  have e : (Complex.exp (2 * (Real.pi : ℂ) * Complex.I / (n : ℂ)))⁻¹
      = Complex.exp (-2 * (Real.pi : ℂ) / ((n : Int) : ℂ) * Complex.I) := by
    rw [← Complex.exp_neg]
    congr 1
    push_cast
    ring
  rw [e] at h
  exact h

end ComplexRoot

/-! C6: the transform -/

section TransformComplex

/-- C6. For every canonical vector `x` over the complex numbers whose declared length is
`n = 2 ^ e` and whose stored indices lie in `[0, n)`, `fft(x)` returns (fuel above `e` is
enough), with declared length `n`; the value it holds at every `k < n` is the sum over
`j < n` of `x[j] * omega ^ (j * k)` for `omega = exp(-2 * pi / n * i)`; for `n = 1` the
output is `x`; for `n ≥ 2` the output stores one entry for each index `0 .. n-1` in
ascending order, the one at `k` being `E[k mod n/2] + O[k mod n/2] * omega ^ k` for the
transforms `E`, `O` of the two halves produced by the splitting loop. -/
theorem fft_correct (x : SparseVec ℂ) (e fuel : Nat) (hf : e < fuel)
    (hlen : x.len = (2 : Int) ^ e) (hc : Canonical x.pairs)
    (hr : ∀ p ∈ x.pairs, 0 ≤ p.ind ∧ p.ind < x.len) :
    ∃ out,
      fft (fun n : Int => Complex.exp (-2 * (Real.pi : ℂ) / (n : ℂ) * Complex.I)) fuel x
        = Res.ok out ∧
      out.len = x.len ∧
      (∀ k : Nat, k < 2 ^ e → coeff out.pairs (k : Int)
        = ∑ j ∈ Finset.range (2 ^ e), coeff x.pairs (j : Int)
            * Complex.exp (-2 * (Real.pi : ℂ) / (x.len : ℂ) * Complex.I) ^ (j * k)) ∧
      (e = 0 → out = x) ∧
      (1 ≤ e →
        out.pairs.map Pair.ind = (List.range (2 ^ e)).map (fun k : Nat => (k : Int)) ∧
        ∃ E O,
          fft (fun n : Int => Complex.exp (-2 * (Real.pi : ℂ) / (n : ℂ) * Complex.I))
            (fuel - 1)
            (splitLoop x.pairs (ofLen (x.len.tdiv 2)) (ofLen (x.len.tdiv 2))).1 = Res.ok E ∧
          fft (fun n : Int => Complex.exp (-2 * (Real.pi : ℂ) / (n : ℂ) * Complex.I))
            (fuel - 1)
            (splitLoop x.pairs (ofLen (x.len.tdiv 2)) (ofLen (x.len.tdiv 2))).2 = Res.ok O ∧
          out.pairs = (List.range (2 ^ e)).map (fun k : Nat =>
            (⟨(k : Int), coeff E.pairs ((k % 2 ^ (e - 1) : Nat) : Int)
              + coeff O.pairs ((k % 2 ^ (e - 1) : Nat) : Int)
                * Complex.exp (-2 * (Real.pi : ℂ) / (x.len : ℂ) * Complex.I) ^ k⟩ : Pair ℂ))) := by
  obtain ⟨out, h1, h2, h3, h4, h5, -, h7⟩ :=
    fft_pow2 _ complex_rootFamily e fuel x hf hlen hc hr
  refine ⟨out, h1, h2, h5, h3, fun he => ⟨?_, h7 he⟩⟩
  rw [h4 he, map_range_ind]

/-- C6 at the canonical vector `{(0, 1), (1, 2)}` of declared length 2. -/
theorem fft_correct_witness :
    ∃ out,
      fft (fun n : Int => Complex.exp (-2 * (Real.pi : ℂ) / (n : ℂ) * Complex.I)) 2
        (⟨[⟨0, 1⟩, ⟨1, 2⟩], 2⟩ : SparseVec ℂ) = Res.ok out ∧
      out.len = 2 ∧ out.pairs.map Pair.ind = [0, 1] := by
  obtain ⟨out, h1, h2, -, -, h5⟩ :=
    fft_correct (⟨[⟨0, 1⟩, ⟨1, 2⟩], 2⟩ : SparseVec ℂ) 1 2 (by decide) (by norm_num)
      (by simp [Canonical]) (by simp)
  exact ⟨out, h1, h2, (h5 (le_refl 1)).1⟩

end TransformComplex

/-! C9: termination -/

section TerminationClaim

theorem lt_indexBound (l : List (Pair R)) : ∀ p ∈ l, p.ind < indexBound l := by
  induction l with
  | nil => intro p hp; cases hp
  | cons q t ih =>
    intro p hp
    have hq : indexBound (q :: t) = max (q.ind + 1) (indexBound t) := rfl
    rcases List.mem_cons.1 hp with rfl | hp
    · rw [hq]
      have := le_max_left (p.ind + 1) (indexBound t)
      omega
    · rw [hq]
      have := le_max_right (q.ind + 1) (indexBound t)
      have := ih p hp
      omega

theorem conj_pairs [Star R] (v : SparseVec R) :
    v.conj.pairs = v.pairs.map (fun p => (⟨p.ind, star p.val⟩ : Pair R)) := by
  unfold SparseVec.conj
  rw [foldl_append_pairs (fun p : Pair R => p.ind) (fun p : Pair R => star p.val)]
  simp [ofLen]

theorem conj_len_ge [Star R] (v : SparseVec R) : v.len ≤ v.conj.len := by
  unfold SparseVec.conj
  exact foldl_append_len_ge (fun p : Pair R => p.ind) (fun p : Pair R => star p.val) _ _

theorem conj_len_le [Star R] (v : SparseVec R) (B : Int) (hl : v.len ≤ B)
    (h : ∀ p ∈ v.pairs, p.ind < B) : v.conj.len ≤ B := by
  unfold SparseVec.conj
  apply foldl_append_len_le (fun p : Pair R => p.ind) (fun p : Pair R => star p.val)
  · exact hl
  · intro p hp
    have := h p hp
    omega

theorem conj_len_of_lt [Star R] (v : SparseVec R) (h : ∀ p ∈ v.pairs, p.ind < v.len) :
    v.conj.len = v.len := by
  unfold SparseVec.conj
  exact foldl_append_len_of_lt (fun p : Pair R => p.ind) (fun p : Pair R => star p.val) _ _ h

/-- C9 as the code has it. For every vector `x` of declared length at least 1, with any
entries, the recursion of `fft(x)` is well-founded and `ifft(x)` terminates as well: from
some amount of fuel on, neither runs out of fuel. -/
theorem fft_ifft_terminate [Field R] [Star R] (omega : Int → R) (x : SparseVec R)
    (hx : 1 ≤ x.len) :
    ∃ N : Nat, ∀ fuel : Nat, N ≤ fuel →
      fft omega fuel x ≠ Res.outOfFuel ∧ ifft omega fuel x ≠ Res.outOfFuel := by
  refine ⟨(max x.len (indexBound x.pairs)).toNat, ?_⟩
  intro fuel hfuel
  have hB1 : x.len ≤ max x.len (indexBound x.pairs) := le_max_left _ _
  have hB2 : ∀ p ∈ x.pairs, p.ind < max x.len (indexBound x.pairs) := by
    intro p hp
    exact lt_of_lt_of_le (lt_indexBound _ p hp) (le_max_right _ _)
  have hB3 : max x.len (indexBound x.pairs) ≤ (fuel : Int) := by omega
  constructor
  · exact fft_ne_outOfFuel omega fuel x _ hx hB1 hB2 hB3
  · have h := fft_ne_outOfFuel omega fuel x.conj (max x.len (indexBound x.pairs))
      (le_trans hx (conj_len_ge x)) (conj_len_le x _ hB1 hB2)
      (by
        intro p hp
        rw [conj_pairs] at hp
        obtain ⟨q, hq, rfl⟩ := List.mem_map.1 hp
        exact hB2 q hq) hB3
    unfold SparseVec.ifft
    cases hc : fft omega fuel x.conj with
    | outOfFuel => exact absurd hc h
    | fault => exact fun h => Res.noConfusion h
    | ok y => exact fun h => Res.noConfusion h

/-- C9 at the demo vector `x`, whose declared length is 5. -/
theorem fft_ifft_terminate_witness :
    ∃ N : Nat, ∀ fuel : Nat, N ≤ fuel →
      fft (fun n : Int => Complex.exp (-2 * (Real.pi : ℂ) / (n : ℂ) * Complex.I)) fuel
          (demoX Complex.I) ≠ Res.outOfFuel ∧
      ifft (fun n : Int => Complex.exp (-2 * (Real.pi : ℂ) / (n : ℂ) * Complex.I)) fuel
          (demoX Complex.I) ≠ Res.outOfFuel :=
  fft_ifft_terminate _ (demoX Complex.I) (by decide)

/-- C9 as stated fails: on `SparseVec()`, the vector without entries and of declared
length 0, `fft` calls itself on the same vector for ever; no fuel makes it return. -/
theorem fft_diverges_on_empty :
    ¬ ∃ fuel : Nat,
      fft (fun n : Int => Complex.exp (-2 * (Real.pi : ℂ) / (n : ℂ) * Complex.I)) fuel
        (SparseVec.empty : SparseVec ℂ) ≠ Res.outOfFuel := by
  rintro ⟨fuel, h⟩
  exact h (fft_empty_outOfFuel _ fuel)

/-- On two vectors of declared length 1 without entries `convfft` does not return either:
the product has no entries and the declared length 0, and `ifft` hands it to `fft`. -/
theorem convfft_diverges_on_empty_operands [Field R] [Star R] (omega : Int → R)
    (fuel : Nat) :
    (convfft omega fuel (⟨[], 1⟩ : SparseVec R) ⟨[], 1⟩).ret = Res.outOfFuel := by
  cases fuel with
  | zero => rfl
  | succ f =>
    have h1 : fft omega (f + 1) ({ (⟨[], 1⟩ : SparseVec R) with len := 1 + 1 - 1 })
        = Res.ok ⟨[], 1⟩ := by
      unfold fft
      simp
    have h2 : cwiseMult (⟨[], 1⟩ : SparseVec R) ⟨[], 1⟩ = Res.ok SparseVec.empty := rfl
    have h3 : ifft omega (f + 1) (SparseVec.empty : SparseVec R) = Res.outOfFuel := by
      unfold SparseVec.ifft
      have hc : (SparseVec.empty : SparseVec R).conj = ⟨[], 0⟩ := rfl
      rw [hc, fft_empty_outOfFuel]
      rfl
    unfold SparseVec.convfft
    simp only [h1, Res.bind, h2, h3]

end TerminationClaim

/-! C5: convolution through the transform -/

section ConvFFT

/-- The walk of `cwiseMult` over two non-empty entry sequences with the same indices: when
the last pair has been multiplied both iterators are at the end, and the next test reads
through them. -/
theorem cwiseLoop_same_ind [Mul R] :
    ∀ (fuel : Nat) (s : Walk R), s.ita.map Pair.ind = s.itb.map Pair.ind → s.ita ≠ [] →
      s.ita.length ≤ fuel → cwiseLoop fuel s = Res.fault := by
  intro fuel
  induction fuel with
  | zero =>
    intro s _ hne hl
    exact absurd (List.length_eq_zero.1 (Nat.le_zero.1 hl)) hne
  | succ fuel ih =>
    rintro ⟨ita, itb, out⟩ h hne hl
    cases ita with
    | nil => exact absurd rfl hne
    | cons a as =>
      cases itb with
      | nil => simp at h
      | cons b bs =>
        simp only [List.map_cons, List.cons.injEq] at h
        obtain ⟨hab, hrest⟩ := h
        cases as with
        | nil =>
          cases bs with
          | nil => simp [cwiseLoop, cwiseBody, hab, Res.bind]
          | cons b1 bs1 => simp at hrest
        | cons a1 as1 =>
          cases bs with
          | nil => simp at hrest
          | cons b1 bs1 =>
            have hab1 : a1.ind = b1.ind := by
              simp only [List.map_cons, List.cons.injEq] at hrest
              exact hrest.1
            have hstep : cwiseLoop (fuel + 1) ⟨a :: a1 :: as1, b :: b1 :: bs1, out⟩
                = cwiseLoop fuel ⟨a1 :: as1, b1 :: bs1, out.append a.ind (a.val * b.val)⟩ := by
              simp [cwiseLoop, cwiseBody, hab, hab1, Res.bind]
            rw [hstep]
            apply ih
            · exact hrest
            · exact fun h => List.noConfusion h
            · simp only [List.length_cons] at hl ⊢
              omega

/-- Whenever the padded length is a power of two that is at least 2, the product step of
`convfft` reads past the end of both transforms. -/
theorem convfft_faults [Field R] [Star R] (omega : Int → R) (hω : RootFamily omega)
    (a b : SparseVec R) (e fuel : Nat) (he : 1 ≤ e) (hf : e < fuel)
    (hlen : a.len + b.len - 1 = (2 : Int) ^ e)
    (hca : Canonical a.pairs) (hcb : Canonical b.pairs)
    (hra : ∀ p ∈ a.pairs, 0 ≤ p.ind ∧ p.ind < a.len + b.len - 1)
    (hrb : ∀ p ∈ b.pairs, 0 ≤ p.ind ∧ p.ind < a.len + b.len - 1) :
    (convfft omega fuel a b).ret = Res.fault := by
  obtain ⟨fa, hfa, -, -, hpa, -⟩ := fft_pow2 omega hω e fuel
    ({ a with len := a.len + b.len - 1 }) hf hlen hca hra
  obtain ⟨fb, hfb, -, -, hpb, -⟩ := fft_pow2 omega hω e fuel
    ({ b with len := a.len + b.len - 1 }) hf hlen hcb hrb
  unfold SparseVec.convfft
  simp only [hfa, hfb, Res.bind]
  have hfault : cwiseMult fa fb = Res.fault := by
    unfold SparseVec.cwiseMult
    apply cwiseLoop_same_ind
    · simp only
      rw [hpa he, hpb he, map_range_ind, map_range_ind]
    · simp only
      rw [hpa he]
      intro h
      have := congrArg List.length h
      simp only [List.length_map, List.length_range, List.length_nil] at this
      exact absurd this (by positivity)
    · simp only
      omega
  rw [hfault]

/-- C5, at the input where the code departs from it: the fixture of the demo driver
(`La = 5`, `Lb = 4`, padded length 8), with any fuel that lets the transforms return.
Both transforms store the indices `0 .. 7`; the walk of `cwiseMult` multiplies the eight
pairs and then dereferences both end iterators, so nothing is returned that could be
compared with `conv`. -/
theorem convfft_demo_faults :
    ∀ k : Nat,
      (convfft (fun n : Int => Complex.exp (-2 * (Real.pi : ℂ) / (n : ℂ) * Complex.I)) (k + 4)
        (demoX Complex.I).cleanup (demoY Complex.I).cleanup).ret = Res.fault := by
  intro k
  apply convfft_faults _ complex_rootFamily _ _ 3 (k + 4) (by decide) (by omega)
  · decide
  · exact cleanup_canonical _
  · exact cleanup_canonical _
  · decide
  · decide

end ConvFFT

/-! C7: the inverse transform undoes the transform -/

section RoundTrip

variable {K : Type} [Field K]

theorem root_orthogonality (w : K) (n : Nat) (hw : IsPrimitiveRoot w n) (j l : Nat)
    (hj : j < n) (hl : l < n) :
    ∑ k ∈ Finset.range n, w ^ (j * k) * w⁻¹ ^ (k * l) = if j = l then (n : K) else 0 := by
  have hn : n ≠ 0 := by omega
  have hw0 : w ≠ 0 := hw.ne_zero hn
  have hterm : ∀ k : Nat, w ^ (j * k) * w⁻¹ ^ (k * l) = (w ^ j * w⁻¹ ^ l) ^ k := by
    intro k
    rw [mul_pow, ← pow_mul, ← pow_mul, mul_comm k l]
  simp only [hterm]
  by_cases hjl : j = l
  · rw [if_pos hjl, hjl, inv_pow, mul_inv_cancel₀ (pow_ne_zero _ hw0)]
    simp
  · rw [if_neg hjl]
    have hz1 : (w ^ j * w⁻¹ ^ l) ^ n = 1 := by
      rw [mul_pow, ← pow_mul, ← pow_mul, mul_comm j n, mul_comm l n, pow_mul, pow_mul,
        hw.pow_eq_one, inv_pow, hw.pow_eq_one]
      simp
    have hz2 : w ^ j * w⁻¹ ^ l - 1 ≠ 0 := by
      intro h
      have h1 : w ^ j * w⁻¹ ^ l = 1 := sub_eq_zero.1 h
      have h2 : w ^ j = w ^ l := by
        rw [inv_pow] at h1
        have := congrArg (fun t => t * w ^ l) h1
        simp only [one_mul] at this
        rw [mul_assoc, inv_mul_cancel₀ (pow_ne_zero _ hw0), mul_one] at this
        exact this
      exact hjl (hw.pow_inj hj hl h2)
    have hg := geom_sum_mul (w ^ j * w⁻¹ ^ l) n
    rw [hz1, sub_self] at hg
    rcases mul_eq_zero.1 hg with h | h
    · exact h
    · exact absurd h hz2

/-- The inversion formula of the discrete Fourier transform. -/
theorem dft_inversion (w : K) (n : Nat) (hw : IsPrimitiveRoot w n) (f : Nat → K) (l : Nat)
    (hl : l < n) :
    ∑ k ∈ Finset.range n, (∑ j ∈ Finset.range n, f j * w ^ (j * k)) * w⁻¹ ^ (k * l)
      = (n : K) * f l := by
  simp only [Finset.sum_mul]
  rw [Finset.sum_comm]
  have hinner : ∀ j ∈ Finset.range n,
      ∑ k ∈ Finset.range n, f j * w ^ (j * k) * w⁻¹ ^ (k * l)
        = f j * (if j = l then (n : K) else 0) := by
    intro j hj
    rw [← root_orthogonality w n hw j l (Finset.mem_range.1 hj) hl, Finset.mul_sum]
    apply Finset.sum_congr rfl
    intro k _
    ring
  rw [Finset.sum_congr rfl hinner, Finset.sum_eq_single l]
  · rw [if_pos rfl, mul_comm]
  · intro j _ hjl
    rw [if_neg hjl, mul_zero]
  · intro h
    exact absurd (Finset.mem_range.2 hl) h

variable [StarRing K]

theorem conj_eq (v : SparseVec K) (h : ∀ p ∈ v.pairs, p.ind < v.len) :
    v.conj = ⟨v.pairs.map (fun p => (⟨p.ind, star p.val⟩ : Pair K)), v.len⟩ := by
  have h1 := conj_pairs v
  have h2 := conj_len_of_lt v h
  cases hc : v.conj with
  | mk ps l => rw [hc] at h1 h2; simp only at h1 h2; rw [h1, h2]

theorem ifft_of_fft_ok (omega : Int → K) (fuel : Nat) (x y : SparseVec K)
    (h : fft omega fuel x.conj = Res.ok y) :
    ∃ out, ifft omega fuel x = Res.ok out ∧
      out.pairs = y.pairs.map (fun p => (⟨p.ind, (1 / (x.len : K)) * star p.val⟩ : Pair K)) := by
  unfold SparseVec.ifft
  rw [h]
  simp only [Res.bind]
  refine ⟨_, rfl, ?_⟩
  rw [foldl_append_pairs (fun p : Pair K => p.ind)
    (fun p : Pair K => (1 / (x.len : K)) * star p.val)]
  simp [SparseVec.empty]

/-- The round trip over a field with a conjugation that inverts the roots of unity. -/
theorem ifft_fft_generic (omega : Int → K) (hω : RootFamily omega) (e : Nat)
    (hprim : IsPrimitiveRoot (omega ((2 : Int) ^ e)) (2 ^ e))
    (hstar : star (omega ((2 : Int) ^ e)) = (omega ((2 : Int) ^ e))⁻¹)
    (h2 : (2 : K) ≠ 0) (fuel : Nat) (hf : e < fuel) (x : SparseVec K)
    (hlen : x.len = (2 : Int) ^ e) (hc : Canonical x.pairs)
    (hr : ∀ p ∈ x.pairs, 0 ≤ p.ind ∧ p.ind < x.len) :
    ∃ y out, fft omega fuel x = Res.ok y ∧ ifft omega fuel y = Res.ok out ∧
      ∀ k : Nat, k < 2 ^ e → coeff out.pairs (k : Int) = coeff x.pairs (k : Int) := by
  obtain ⟨y, hy, hylen, hy0, hy1, hyc, -, -⟩ := fft_pow2 omega hω e fuel x hf hlen hc hr
  rcases Nat.eq_zero_or_pos e with he | he
  · -- length 1: both transforms return their input
    subst he
    have hyx : y = x := hy0 rfl
    subst hyx
    have hlen1 : y.len = 1 := by simpa using hlen
    have hconj := conj_eq y (fun p hp => (hr p hp).2)
    have hfc : fft omega fuel y.conj = Res.ok y.conj := by
      obtain ⟨f, rfl⟩ : ∃ f, fuel = f + 1 := ⟨fuel - 1, by omega⟩
      unfold fft
      simp [hconj, hlen1]
    obtain ⟨out, hout, hpairs⟩ := ifft_of_fft_ok omega fuel y y.conj hfc
    refine ⟨y, out, hy, hout, ?_⟩
    intro k _
    rw [hpairs, hconj, List.map_map]
    have : (fun p : Pair K => (⟨p.ind, (1 / (y.len : K)) * star p.val⟩ : Pair K))
        ∘ (fun p : Pair K => (⟨p.ind, star p.val⟩ : Pair K)) = id := by
      funext p
      simp [hlen1]
    rw [this, List.map_id]
  · have he1 : 1 ≤ e := he
    have hypairs := hy1 he1
    have hyr : ∀ p ∈ y.pairs, 0 ≤ p.ind ∧ p.ind < y.len := by
      intro p hp
      rw [hypairs] at hp
      obtain ⟨k, hk, rfl⟩ := List.mem_map.1 hp
      have hk' := List.mem_range.1 hk
      have hcast : ((2 ^ e : Nat) : Int) = (2 : Int) ^ e := by push_cast; rfl
      simp only
      rw [hylen, hlen, ← hcast]
      omega
    have hconj := conj_eq y (fun p hp => (hyr p hp).2)
    have hcpairs : y.conj.pairs = (List.range (2 ^ e)).map (fun k : Nat =>
        (⟨(k : Int), star (dftSum (omega x.len) (2 ^ e) x.pairs k)⟩ : Pair K)) := by
      rw [hconj]
      simp only
      rw [hypairs, List.map_map]
      rfl
    have hclen : y.conj.len = (2 : Int) ^ e := by rw [hconj]; simp only; rw [hylen, hlen]
    obtain ⟨z, hz, -, -, hz1, -, -, -⟩ := fft_pow2 omega hω e fuel y.conj hf hclen
      (by rw [hcpairs]; exact canonical_map_range _ _)
      (by
        intro p hp
        rw [hconj] at hp ⊢
        obtain ⟨q, hq, rfl⟩ := List.mem_map.1 hp
        exact hyr q hq)
    obtain ⟨out, hout, hpairs⟩ := ifft_of_fft_ok omega fuel y z hz
    refine ⟨y, out, hy, hout, ?_⟩
    intro l hl
    rw [hpairs, hz1 he1, List.map_map]
    have hshape : ((fun p : Pair K => (⟨p.ind, (1 / (y.len : K)) * star p.val⟩ : Pair K))
        ∘ (fun k : Nat =>
          (⟨(k : Int), dftSum (omega y.conj.len) (2 ^ e) y.conj.pairs k⟩ : Pair K)))
        = (fun k : Nat => (⟨(k : Int),
            (1 / (y.len : K)) * star (dftSum (omega y.conj.len) (2 ^ e) y.conj.pairs k)⟩
              : Pair K)) := rfl
    rw [hshape, coeff_map_range _ _ _ hl, hclen, hylen, hlen]
    have hn0 : ((2 : K) ^ e) ≠ 0 := pow_ne_zero _ h2
    have hsum : star (dftSum (omega ((2 : Int) ^ e)) (2 ^ e) y.conj.pairs l)
        = ((2 ^ e : Nat) : K) * coeff x.pairs (l : Int) := by
      rw [← dft_inversion (omega ((2 : Int) ^ e)) (2 ^ e) hprim
        (fun j => coeff x.pairs (j : Int)) l hl]
      unfold dftSum
      rw [star_sum]
      apply Finset.sum_congr rfl
      intro k hk
      rw [hcpairs, coeff_map_range _ _ _ (Finset.mem_range.1 hk), star_mul', star_star,
        star_pow, hstar, hlen]
      rfl
    rw [hsum]
    push_cast
    field_simp

end RoundTrip

section RoundTripComplex

theorem complex_root_star (n : Int) :
    star (Complex.exp (-2 * (Real.pi : ℂ) / (n : ℂ) * Complex.I))
      = (Complex.exp (-2 * (Real.pi : ℂ) / (n : ℂ) * Complex.I))⁻¹ := by
  rw [Complex.star_def, ← Complex.exp_conj, ← Complex.exp_neg]
  congr 1
  simp only [map_mul, map_div₀, map_neg, Complex.conj_I, Complex.conj_ofReal, map_ofNat,
    map_intCast]
  ring

/-- C7. For every canonical vector `x` over the complex numbers whose declared length is
`n = 2 ^ e` and whose stored indices lie in `[0, n)`, `fft(x)` returns some `y`,
`ifft(y)` returns some `out` (fuel above `e` is enough), and `out` holds at every index
below `n` the value `x` holds there. -/
theorem ifft_fft_roundtrip (x : SparseVec ℂ) (e fuel : Nat) (hf : e < fuel)
    (hlen : x.len = (2 : Int) ^ e) (hc : Canonical x.pairs)
    (hr : ∀ p ∈ x.pairs, 0 ≤ p.ind ∧ p.ind < x.len) :
    ∃ y out,
      fft (fun n : Int => Complex.exp (-2 * (Real.pi : ℂ) / (n : ℂ) * Complex.I)) fuel x
        = Res.ok y ∧
      ifft (fun n : Int => Complex.exp (-2 * (Real.pi : ℂ) / (n : ℂ) * Complex.I)) fuel y
        = Res.ok out ∧
      ∀ k : Nat, k < 2 ^ e → coeff out.pairs (k : Int) = coeff x.pairs (k : Int) := by
  apply ifft_fft_generic _ complex_rootFamily e _ _ two_ne_zero fuel hf x hlen hc hr
  · have h := complex_root_primitive (2 ^ e) (by positivity)
    have hcast : ((2 ^ e : Nat) : Int) = (2 : Int) ^ e := by push_cast; rfl
    rw [hcast] at h
    exact h
  · exact complex_root_star _

/-- C7 at the canonical vector `{(0, 1), (1, 2)}` of declared length 2. -/
theorem ifft_fft_roundtrip_witness :
    ∃ y out,
      fft (fun n : Int => Complex.exp (-2 * (Real.pi : ℂ) / (n : ℂ) * Complex.I)) 2
        (⟨[⟨0, 1⟩, ⟨1, 2⟩], 2⟩ : SparseVec ℂ) = Res.ok y ∧
      ifft (fun n : Int => Complex.exp (-2 * (Real.pi : ℂ) / (n : ℂ) * Complex.I)) 2 y
        = Res.ok out ∧
      coeff out.pairs 0 = 1 ∧ coeff out.pairs 1 = 2 := by
  obtain ⟨y, out, h1, h2, h3⟩ :=
    ifft_fft_roundtrip (⟨[⟨0, 1⟩, ⟨1, 2⟩], 2⟩ : SparseVec ℂ) 1 2 (by decide) (by norm_num)
      (by simp [Canonical]) (by simp)
  refine ⟨y, out, h1, h2, ?_, ?_⟩
  · have := h3 0 (by norm_num)
    simpa [coeff] using this
  · have := h3 1 (by norm_num)
    simpa [coeff] using this

end RoundTripComplex

section WalkTermination

/-- Every pass through the body of the loop of `cwiseMult` that does not read outside the
storage advances at least one iterator. -/
theorem cwiseBody_decreases [Mul R] (s s1 : Walk R) (ha : s.ita ≠ []) (hb : s.itb ≠ [])
    (h : cwiseBody s = Res.ok s1) :
    s1.ita.length + s1.itb.length < s.ita.length + s.itb.length := by
  rcases s with ⟨ita, itb, out⟩
  cases ita with
  | nil => exact absurd rfl ha
  | cons a as =>
    cases itb with
    | nil => exact absurd rfl hb
    | cons b bs =>
      unfold cwiseBody at h
      simp only at h
      by_cases hab : a.ind = b.ind
      · rw [if_pos hab] at h
        simp only at h
        cases as with
        | nil => simp at h
        | cons a1 as1 =>
          cases bs with
          | nil => simp at h
          | cons b1 bs1 =>
            simp only at h
            by_cases h1 : a1.ind < b1.ind
            · rw [if_pos h1] at h
              simp only at h
              cases as1 with
              | nil => simp at h
              | cons a2 as2 =>
                simp only [Res.ok.injEq] at h
                subst h
                split <;> simp only [List.length_cons] <;> omega
            · rw [if_neg h1] at h
              simp only [Res.ok.injEq] at h
              subst h
              split <;> simp only [List.length_cons] <;> omega
      · rw [if_neg hab] at h
        simp only at h
        by_cases h1 : a.ind < b.ind
        · rw [if_pos h1] at h
          simp only at h
          cases as with
          | nil => simp at h
          | cons a2 as2 =>
            simp only [Res.ok.injEq] at h
            subst h
            split <;> simp only [List.length_cons] <;> omega
        · rw [if_neg h1] at h
          simp only [Res.ok.injEq] at h
          subst h
          rw [if_pos (by omega)]
          simp only [List.length_cons]
          omega

/-- The fuel `cwiseMult` hands to its loop is enough: the walk never runs out of it. -/
theorem cwiseLoop_ne_outOfFuel [Mul R] :
    ∀ (fuel : Nat) (s : Walk R), s.ita.length + s.itb.length ≤ fuel →
      cwiseLoop fuel s ≠ Res.outOfFuel := by
  intro fuel
  induction fuel with
  | zero =>
    intro s hs
    have h1 : s.ita = [] := List.length_eq_zero.1 (by omega)
    unfold cwiseLoop
    rw [h1]
    exact fun h => Res.noConfusion h
  | succ fuel ih =>
    intro s hs
    unfold cwiseLoop
    split
    · rename_i a as b bs hita hitb
      cases hbody : cwiseBody s with
      | fault => exact fun h => Res.noConfusion h
      | outOfFuel =>
        exfalso
        unfold cwiseBody at hbody
        rw [hita, hitb] at hbody
        simp only at hbody
        split at hbody
        · split at hbody
          · simp at hbody
          · simp at hbody
        · simp at hbody
      | ok s1 =>
        simp only [Res.bind]
        apply ih
        have := cwiseBody_decreases s s1 (by rw [hita]; simp) (by rw [hitb]; simp) hbody
        omega
    · exact fun h => Res.noConfusion h

theorem cwiseMult_ne_outOfFuel [Mul R] (a b : SparseVec R) :
    cwiseMult a b ≠ Res.outOfFuel :=
  cwiseLoop_ne_outOfFuel _ _ (le_refl _)

end WalkTermination

/-! C12, C13, C14, C15: frame of `convfft`, `conj`, `append` -/

section SmallOperations

/-- C12. `convfft(a, b)` changes its two operands only in the declared length: afterwards
both have the length `La + Lb - 1` computed from the lengths before the call, and their
entry sequences are what they were; this holds whatever the call returns. -/
theorem convfft_frame [Field R] [Star R] (omega : Int → R) (fuel : Nat) (a b : SparseVec R) :
    (convfft omega fuel a b).a.len = a.len + b.len - 1 ∧
    (convfft omega fuel a b).b.len = a.len + b.len - 1 ∧
    (convfft omega fuel a b).a.pairs = a.pairs ∧
    (convfft omega fuel a b).b.pairs = b.pairs :=
  ⟨rfl, rfl, rfl, rfl⟩

/-- C13. For every vector `v` whose stored indices are below its declared length
(canonical or not), `conj(v)` has the declared length of `v` and as many entries, the
`j`-th one with the index of the `j`-th entry of `v` and the conjugate of its value: the
entry sequence is the image of that of `v`, in the same order. -/
theorem conj_correct [Star R] (v : SparseVec R) (h : ∀ p ∈ v.pairs, p.ind < v.len) :
    v.conj.len = v.len ∧
    v.conj.pairs.length = v.pairs.length ∧
    v.conj.pairs = v.pairs.map (fun p => (⟨p.ind, star p.val⟩ : Pair R)) ∧
    (∀ (j : Nat) (p : Pair R), v.pairs[j]? = some p →
      v.conj.pairs[j]? = some ⟨p.ind, star p.val⟩) := by
  have hp := conj_pairs v
  refine ⟨conj_len_of_lt v h, by rw [hp, List.length_map], hp, ?_⟩
  intro j p hj
  rw [hp, List.getElem?_map, hj]
  rfl

/-- C13 at the non-canonical vector `{(2, i), (0, 1), (2, 3)}` of declared length 3. -/
theorem conj_correct_witness :
    (SparseVec.conj (⟨[⟨2, Complex.I⟩, ⟨0, 1⟩, ⟨2, 3⟩], 3⟩ : SparseVec ℂ)).len = 3 ∧
    (SparseVec.conj (⟨[⟨2, Complex.I⟩, ⟨0, 1⟩, ⟨2, 3⟩], 3⟩ : SparseVec ℂ)).pairs
      = [⟨2, star Complex.I⟩, ⟨0, star 1⟩, ⟨2, star 3⟩] := by
  have h := conj_correct (⟨[⟨2, Complex.I⟩, ⟨0, 1⟩, ⟨2, 3⟩], 3⟩ : SparseVec ℂ) (by decide)
  exact ⟨h.1, h.2.2.1⟩

/-- C14. `conj` is an involution on the entries: for every vector `v`, `conj(conj(v))`
has the entry sequence of `v`, so it holds at every index the value `v` holds there. -/
theorem conj_conj [AddCommMonoid R] [InvolutiveStar R] (v : SparseVec R) :
    v.conj.conj.pairs = v.pairs ∧
    ∀ i : Int, coeff v.conj.conj.pairs i = coeff v.pairs i := by
  have h : v.conj.conj.pairs = v.pairs := by
    rw [conj_pairs, conj_pairs, List.map_map]
    have hid : ((fun p : Pair R => (⟨p.ind, star p.val⟩ : Pair R))
        ∘ (fun p : Pair R => (⟨p.ind, star p.val⟩ : Pair R))) = id := by
      funext p
      simp
    rw [hid, List.map_id]
  exact ⟨h, fun i => by rw [h]⟩

/-- C15. `append(index, value)` adds the one entry `(index, value)` at the end of the
entry sequence and leaves every earlier entry where it was, also one with the same
index; the declared length becomes `index + 1` when `index >= len` and stays otherwise. -/
theorem append_correct (v : SparseVec R) (index : Int) (value : R) :
    (v.append index value).pairs = v.pairs ++ [⟨index, value⟩] ∧
    (v.append index value).pairs.length = v.pairs.length + 1 ∧
    (∀ j : Nat, j < v.pairs.length → (v.append index value).pairs[j]? = v.pairs[j]?) ∧
    (v.append index value).pairs[v.pairs.length]? = some ⟨index, value⟩ ∧
    (index ≥ v.len → (v.append index value).len = index + 1) ∧
    (index < v.len → (v.append index value).len = v.len) := by
  refine ⟨rfl, by simp [SparseVec.append], ?_, by simp [SparseVec.append], ?_, ?_⟩
  · intro j hj
    simp only [SparseVec.append]
    rw [List.getElem?_append_left hj]
  · intro h
    simp only [SparseVec.append]
    rw [if_pos h]
  · intro h
    simp only [SparseVec.append]
    rw [if_neg (by omega)]

end SmallOperations

/-! C16, C20: the result of `cleanup` does not depend on the order of the entries -/

section OrderIndependence

variable [AddCommMonoid R]

/-- Two canonical sequences that store the same indices and hold the same value at every
index are the same sequence. -/
theorem canonical_ext (l₁ l₂ : List (Pair R)) (h₁ : Canonical l₁) (h₂ : Canonical l₂)
    (hmem : ∀ i : Int, i ∈ l₁.map Pair.ind ↔ i ∈ l₂.map Pair.ind)
    (hco : ∀ i : Int, coeff l₁ i = coeff l₂ i) : l₁ = l₂ := by
  have hind : l₁.map Pair.ind = l₂.map Pair.ind := by
    apply List.eq_of_perm_of_sorted (r := (· < ·)) _ h₁ h₂
    exact (List.perm_ext_iff_of_nodup (List.Sorted.nodup h₁) (List.Sorted.nodup h₂)).2 hmem
  have hlen : l₁.length = l₂.length := by
    have := congrArg List.length hind
    simpa using this
  apply List.ext_getElem hlen
  intro n hn₁ hn₂
  have hi : l₁[n].ind = l₂[n].ind := by
    have e1 : (l₁.map Pair.ind)[n]? = (l₂.map Pair.ind)[n]? := by rw [hind]
    rw [List.getElem?_map, List.getElem?_map, List.getElem?_eq_getElem hn₁,
      List.getElem?_eq_getElem hn₂] at e1
    simpa using e1
  have hv : l₁[n].val = l₂[n].val := by
    rw [← coeff_of_mem h₁ (List.getElem_mem hn₁), ← coeff_of_mem h₂ (List.getElem_mem hn₂),
      hi, hco]
  cases h1 : l₁[n] with
  | mk i1 v1 =>
    cases h2 : l₂[n] with
    | mk i2 v2 =>
      rw [h1, h2] at hi hv
      simp only at hi hv
      rw [hi, hv]

/-- Vectors whose entry sequences are permutations of each other have the same entries
after `cleanup()`. -/
theorem cleanup_pairs_of_perm (v w : SparseVec R) (h : v.pairs.Perm w.pairs) :
    v.cleanup.pairs = w.cleanup.pairs := by
  apply canonical_ext _ _ (cleanup_canonical v) (cleanup_canonical w)
  · intro i
    rw [cleanup_mem_ind, cleanup_mem_ind]
    exact (h.map _).mem_iff
  · intro i
    rw [cleanup_coeff, cleanup_coeff, coeff_perm h]

/-- C16. The result of `cleanup()` does not depend on the order of the raw entries: two
vectors whose entry sequences are permutations of each other have the same entry
sequence after `cleanup()`; and whatever sorted arrangement of the entries `std::sort`
produces (it is free in the order of entries of equal index), the merging loop turns it
into that same sequence. -/
theorem cleanup_order_independent (v w : SparseVec R) (h : v.pairs.Perm w.pairs) :
    v.cleanup.pairs = w.cleanup.pairs ∧
    ∀ s : List (Pair R), s.Perm v.pairs → s.Sorted (fun x y => x.ind ≤ y.ind) →
      cleanupLoop s 0 = v.cleanup.pairs := by
  constructor
  · exact cleanup_pairs_of_perm v w h
  · intro s hs hsorted
    apply canonical_ext _ _ (cleanupLoop_canonical s 0 hsorted) (cleanup_canonical v)
    · intro i
      rw [cleanupLoop_mem_ind, cleanup_mem_ind]
      exact (hs.map _).mem_iff
    · intro i
      rw [cleanupLoop_coeff s 0 i hsorted, cleanup_coeff, coeff_perm hs]
      cases s <;> simp [pending]

/-- C16 at `{(3, 1), (0, 2), (3, 5)}` and its rearrangement `{(3, 5), (3, 1), (0, 2)}`. -/
theorem cleanup_order_independent_witness :
    (SparseVec.cleanup (⟨[⟨3, 1⟩, ⟨0, 2⟩, ⟨3, 5⟩], 4⟩ : SparseVec ℤ)).pairs
      = (SparseVec.cleanup (⟨[⟨3, 5⟩, ⟨3, 1⟩, ⟨0, 2⟩], 4⟩ : SparseVec ℤ)).pairs :=
  (cleanup_order_independent (⟨[⟨3, 1⟩, ⟨0, 2⟩, ⟨3, 5⟩], 4⟩ : SparseVec ℤ)
    ⟨[⟨3, 5⟩, ⟨3, 1⟩, ⟨0, 2⟩], 4⟩ (by decide)).1

section ConvCommutes

omit [AddCommMonoid R] in
theorem append_len_eq (v : SparseVec R) (i : Int) (x : R) :
    (v.append i x).len = lenAfter v.len [⟨i, x⟩] := rfl

omit [AddCommMonoid R] in
theorem lenAfter_append (L : Int) (l₁ l₂ : List (Pair R)) :
    lenAfter L (l₁ ++ l₂) = lenAfter (lenAfter L l₁) l₂ := by
  unfold lenAfter
  rw [List.foldl_append]

omit [AddCommMonoid R] in
/-- The declared length after a loop of `append` calls. -/
theorem foldl_append_len {α : Type} (f : α → Int) (g : α → R) (l : List α)
    (v : SparseVec R) :
    (l.foldl (fun out p => out.append (f p) (g p)) v).len
      = lenAfter v.len (l.map (fun p => (⟨f p, g p⟩ : Pair R))) := by
  induction l generalizing v with
  | nil => rfl
  | cons p t ih =>
    rw [List.foldl_cons, ih, List.map_cons]
    rfl

omit [AddCommMonoid R] in
theorem lenAfter_perm (L : Int) {l₁ l₂ : List (Pair R)} (h : l₁.Perm l₂) :
    lenAfter L l₁ = lenAfter L l₂ := by
  unfold lenAfter
  haveI : RightCommutative
      (fun (len : Int) (p : Pair R) => if p.ind ≥ len then p.ind + 1 else len) :=
    ⟨by
      intro len p q
      show (if q.ind ≥ (if p.ind ≥ len then p.ind + 1 else len) then q.ind + 1
          else (if p.ind ≥ len then p.ind + 1 else len))
        = (if p.ind ≥ (if q.ind ≥ len then q.ind + 1 else len) then p.ind + 1
          else (if q.ind ≥ len then q.ind + 1 else len))
      split_ifs <;> omega⟩
  exact h.foldl_eq L

omit [AddCommMonoid R] in
/-- The declared length of the raw output of `conv`. -/
theorem conv_len_eq [Mul R] (a b : SparseVec R) :
    (conv a b).len = lenAfter (a.len + b.len - 1) (conv a b).pairs := by
  rw [conv_pairs]
  unfold conv
  have key : ∀ (l : List (Pair R)) (w : SparseVec R),
      (l.foldl (fun out eb => a.pairs.foldl
        (fun out ea => out.append (eb.ind + ea.ind) (eb.val * ea.val)) out) w).len
      = lenAfter w.len (l.flatMap (fun eb => a.pairs.map
          (fun ea => (⟨eb.ind + ea.ind, eb.val * ea.val⟩ : Pair R)))) := by
    intro l
    induction l with
    | nil => intro w; rfl
    | cons eb t ih =>
      intro w
      rw [List.foldl_cons, ih, List.flatMap_cons, lenAfter_append,
        foldl_append_len (fun ea : Pair R => eb.ind + ea.ind)
          (fun ea : Pair R => eb.val * ea.val)]
  rw [key]
  rfl

omit [AddCommMonoid R] in
theorem flatMap_swap_perm {α β γ : Type} (l₁ : List α) (l₂ : List β) (f : α → β → γ) :
    (l₁.flatMap fun a => l₂.map (f a)).Perm
      (l₂.flatMap fun b => l₁.map (fun a => f a b)) := by
  induction l₁ with
  | nil => simp
  | cons a t ih =>
    rw [List.flatMap_cons]
    have h := List.map_append_flatMap_perm l₂ (f a) (fun b => t.map (fun a => f a b))
    simp only [List.map_cons]
    exact (List.Perm.append_left _ ih).trans h

omit [AddCommMonoid R] in
/-- The raw outputs of `conv(a, b)` and `conv(b, a)` hold the same contributions. -/
theorem conv_pairs_perm [CommRing R] (a b : SparseVec R) :
    (conv a b).pairs.Perm (conv b a).pairs := by
  rw [conv_pairs, conv_pairs]
  have h := flatMap_swap_perm b.pairs a.pairs
    (fun eb ea => (⟨eb.ind + ea.ind, eb.val * ea.val⟩ : Pair R))
  have e : (fun ea : Pair R => b.pairs.map
      (fun eb => (⟨ea.ind + eb.ind, ea.val * eb.val⟩ : Pair R)))
      = (fun ea : Pair R => b.pairs.map
      (fun eb => (⟨eb.ind + ea.ind, eb.val * ea.val⟩ : Pair R))) := by
    funext ea
    apply List.map_congr_left
    intro eb _
    rw [add_comm, mul_comm]
  rw [e]
  exact h

omit [AddCommMonoid R] in
/-- C20. Exact convolution is commutative after canonicalisation: for all vectors `a` and
`b`, canonical or not, `conv(a, b)` followed by `cleanup()` and `conv(b, a)` followed by
`cleanup()` have the same declared length and the same entry sequence; the raw entry
sequences are permutations of each other. -/
theorem conv_comm_cleanup [CommRing R] (a b : SparseVec R) :
    (conv a b).cleanup.len = (conv b a).cleanup.len ∧
    (conv a b).cleanup.pairs = (conv b a).cleanup.pairs ∧
    (conv a b).pairs.Perm (conv b a).pairs := by
  have hp := conv_pairs_perm a b
  refine ⟨?_, cleanup_pairs_of_perm _ _ hp, hp⟩
  show (conv a b).len = (conv b a).len
  rw [conv_len_eq, conv_len_eq, lenAfter_perm _ hp, add_comm a.len b.len]

end ConvCommutes

end OrderIndependence

/-! C11, C17: the declared length of the elementwise product, and the reads of its walk -/

section CwiseLength

theorem lenAfter_ge (L : Int) (l : List (Pair R)) : L ≤ lenAfter L l := by
  induction l generalizing L with
  | nil => exact le_refl _
  | cons p t ih =>
    have h : lenAfter L (p :: t) = lenAfter (if p.ind ≥ L then p.ind + 1 else L) t := rfl
    rw [h]
    refine le_trans ?_ (ih _)
    split <;> omega

theorem lenAfter_gt_ind (L : Int) (l : List (Pair R)) : ∀ p ∈ l, p.ind < lenAfter L l := by
  induction l generalizing L with
  | nil => intro p hp; cases hp
  | cons q t ih =>
    intro p hp
    have h : lenAfter L (q :: t) = lenAfter (if q.ind ≥ L then q.ind + 1 else L) t := rfl
    rw [h]
    rcases List.mem_cons.1 hp with rfl | hp
    · by_cases hL : p.ind ≥ L
      · rw [if_pos hL]
        have := lenAfter_ge (p.ind + 1) t
        omega
      · rw [if_neg hL]
        have := lenAfter_ge L t
        omega
    · exact ih _ p hp

theorem lenAfter_cases (L : Int) (l : List (Pair R)) :
    lenAfter L l = L ∨ ∃ p ∈ l, lenAfter L l = p.ind + 1 := by
  induction l generalizing L with
  | nil => exact Or.inl rfl
  | cons q t ih =>
    have h : lenAfter L (q :: t) = lenAfter (if q.ind ≥ L then q.ind + 1 else L) t := rfl
    rw [h]
    rcases ih (if q.ind ≥ L then q.ind + 1 else L) with h1 | ⟨p, hp, h1⟩
    · rw [h1]
      by_cases hq : q.ind ≥ L
      · rw [if_pos hq]
        exact Or.inr ⟨q, List.mem_cons_self _ _, rfl⟩
      · rw [if_neg hq]
        exact Or.inl rfl
    · exact Or.inr ⟨p, List.mem_cons_of_mem _ hp, h1⟩

/-- A pass through the body of the loop of `cwiseMult` leaves the output as it was or
appends one entry to it. -/
theorem cwiseBody_out [Mul R] (s s1 : Walk R) (h : cwiseBody s = Res.ok s1) :
    s1.out = s.out ∨ ∃ (i : Int) (x : R), s1.out = s.out.append i x := by
  rcases s with ⟨ita, itb, out⟩
  cases ita with
  | nil =>
    simp only [cwiseBody, Res.ok.injEq] at h
    subst h
    exact Or.inl rfl
  | cons a as =>
    cases itb with
    | nil =>
      simp only [cwiseBody, Res.ok.injEq] at h
      subst h
      exact Or.inl rfl
    | cons b bs =>
      unfold cwiseBody at h
      simp only at h
      by_cases hab : a.ind = b.ind
      · rw [if_pos hab] at h
        simp only at h
        cases as with
        | nil => simp at h
        | cons a1 as1 =>
          cases bs with
          | nil => simp at h
          | cons b1 bs1 =>
            simp only at h
            by_cases h1 : a1.ind < b1.ind
            · rw [if_pos h1] at h
              simp only at h
              cases as1 with
              | nil => simp at h
              | cons a2 as2 =>
                simp only [Res.ok.injEq] at h
                subst h
                right
                refine ⟨a.ind, a.val * b.val, ?_⟩
                split <;> rfl
            · rw [if_neg h1] at h
              simp only [Res.ok.injEq] at h
              subst h
              right
              refine ⟨a.ind, a.val * b.val, ?_⟩
              split <;> rfl
      · rw [if_neg hab] at h
        simp only at h
        by_cases h1 : a.ind < b.ind
        · rw [if_pos h1] at h
          simp only at h
          cases as with
          | nil => simp at h
          | cons a2 as2 =>
            simp only [Res.ok.injEq] at h
            subst h
            left
            split <;> rfl
        · rw [if_neg h1] at h
          simp only [Res.ok.injEq] at h
          subst h
          left
          split <;> rfl

/-- Whatever the walk of `cwiseMult` returns has the declared length its own entries
give it through `append`, provided the output it started from has. -/
theorem cwiseLoop_len [Mul R] :
    ∀ (fuel : Nat) (s : Walk R) (out : SparseVec R), cwiseLoop fuel s = Res.ok out →
      s.out.len = lenAfter 0 s.out.pairs → out.len = lenAfter 0 out.pairs := by
  intro fuel
  induction fuel with
  | zero =>
    intro s out h hs
    unfold cwiseLoop at h
    split at h
    · exact Res.noConfusion h
    · simp only [Res.ok.injEq] at h
      rw [← h]
      exact hs
  | succ fuel ih =>
    intro s out h hs
    unfold cwiseLoop at h
    split at h
    · cases hb : cwiseBody s with
      | fault => rw [hb] at h; exact Res.noConfusion h
      | outOfFuel => rw [hb] at h; exact Res.noConfusion h
      | ok s1 =>
        rw [hb] at h
        simp only [Res.bind] at h
        apply ih s1 out h
        rcases cwiseBody_out s s1 hb with e | ⟨i, x, e⟩
        · rw [e]; exact hs
        · rw [e, append_len_eq, hs]
          show lenAfter (lenAfter 0 s.out.pairs) [⟨i, x⟩] = lenAfter 0 (s.out.pairs ++ [⟨i, x⟩])
          rw [lenAfter_append]
    · simp only [Res.ok.injEq] at h
      rw [← h]
      exact hs

/-- C11 as the code has it. `cwiseMult` never sets the declared length of its output
from the operands, but every `append` of an entry does: whenever `cwiseMult(a, b)`
returns, the declared length of the result is what appending its entries to a vector of
length 0 gives. It is non-negative, above every stored index, and either 0 or the index
of a stored entry plus one; so it is 0 when no entry is emitted. -/
theorem cwiseMult_len [Mul R] (a b out : SparseVec R) (h : cwiseMult a b = Res.ok out) :
    out.len = lenAfter 0 out.pairs ∧
    0 ≤ out.len ∧
    (∀ p ∈ out.pairs, p.ind < out.len) ∧
    (out.len = 0 ∨ ∃ p ∈ out.pairs, out.len = p.ind + 1) ∧
    (out.pairs = [] → out.len = 0) := by
  have hl : out.len = lenAfter 0 out.pairs := cwiseLoop_len _ _ out h rfl
  refine ⟨hl, ?_, ?_, ?_, ?_⟩
  · rw [hl]; exact lenAfter_ge 0 _
  · rw [hl]; exact lenAfter_gt_ind 0 _
  · rw [hl]; exact lenAfter_cases 0 _
  · intro he
    rw [hl, he]
    rfl

/-- C11 at the canonical vectors `{(1, 2), (5, 3)}` and `{(1, 4), (3, 5)}`. -/
theorem cwiseMult_len_witness :
    cwiseMult (⟨[⟨1, 2⟩, ⟨5, 3⟩], 6⟩ : SparseVec ℂ) ⟨[⟨1, 4⟩, ⟨3, 5⟩], 4⟩
      = Res.ok ⟨[⟨1, 2 * 4⟩], 2⟩ ∧
    (2 : Int) = lenAfter 0 [(⟨1, 2 * 4⟩ : Pair ℂ)] :=
  ⟨rfl, (cwiseMult_len (⟨[⟨1, 2⟩, ⟨5, 3⟩], 6⟩ : SparseVec ℂ) ⟨[⟨1, 4⟩, ⟨3, 5⟩], 4⟩
    ⟨[⟨1, 2 * 4⟩], 2⟩ rfl).1⟩

/-- C11 as stated fails: the product of the canonical vectors `{(1, 2), (5, 3)}` and
`{(1, 4), (3, 5)}` is returned with the one entry at index 1 and the declared length 2,
which `append` gave it. -/
theorem cwiseMult_len_not_zero :
    ∃ out : SparseVec ℂ,
      cwiseMult (⟨[⟨1, 2⟩, ⟨5, 3⟩], 6⟩ : SparseVec ℂ) ⟨[⟨1, 4⟩, ⟨3, 5⟩], 4⟩ = Res.ok out ∧
      out.len = 2 ∧ out.len ≠ 0 :=
  ⟨⟨[⟨1, 2 * 4⟩], 2⟩, rfl, rfl, by decide⟩

/-- The product of a vector with entries with itself: the walk multiplies every entry and
then reads through both end iterators. -/
theorem cwiseMult_self_faults [Mul R] (v : SparseVec R) (h : v.pairs ≠ []) :
    cwiseMult v v = Res.fault := by
  unfold SparseVec.cwiseMult
  exact cwiseLoop_same_ind _ _ rfl h (by simp only; omega)

/-- C17, at the input where the code departs from it: the index sets `{0, 1, 3, 4}` and
`{1, 2, 3}` of the demo fixture, with any values. The first two passes of the loop read
inside both sequences; the third starts with `it_a` at the entry of index 3 and `it_b` at
its last entry, emits their product, advances both, and then reads `it_b->ind` with
`it_b` at the end of `b`; so does the call as a whole. -/
theorem cwiseMult_walk_reads_end [Mul R] (x0 x1 x3 x4 y1 y2 y3 : R) :
    cwiseBody (⟨[⟨0, x0⟩, ⟨1, x1⟩, ⟨3, x3⟩, ⟨4, x4⟩], [⟨1, y1⟩, ⟨2, y2⟩, ⟨3, y3⟩],
        SparseVec.empty⟩ : Walk R)
      = Res.ok ⟨[⟨1, x1⟩, ⟨3, x3⟩, ⟨4, x4⟩], [⟨1, y1⟩, ⟨2, y2⟩, ⟨3, y3⟩], SparseVec.empty⟩ ∧
    cwiseBody (⟨[⟨1, x1⟩, ⟨3, x3⟩, ⟨4, x4⟩], [⟨1, y1⟩, ⟨2, y2⟩, ⟨3, y3⟩],
        SparseVec.empty⟩ : Walk R)
      = Res.ok ⟨[⟨3, x3⟩, ⟨4, x4⟩], [⟨3, y3⟩], ⟨[⟨1, x1 * y1⟩], 2⟩⟩ ∧
    cwiseBody (⟨[⟨3, x3⟩, ⟨4, x4⟩], [⟨3, y3⟩], ⟨[⟨1, x1 * y1⟩], 2⟩⟩ : Walk R) = Res.fault ∧
    cwiseMult (⟨[⟨0, x0⟩, ⟨1, x1⟩, ⟨3, x3⟩, ⟨4, x4⟩], 5⟩ : SparseVec R)
        ⟨[⟨1, y1⟩, ⟨2, y2⟩, ⟨3, y3⟩], 4⟩ = Res.fault :=
  ⟨rfl, rfl, rfl, rfl⟩

end CwiseLength

/-! C18: the reads of the binary search -/

section LookupReads

/-- C18, where the code departs from it: for every vector with at least one entry and
every index `i` above all stored indices, the search of `get(i)` moves right until it
inspects `pairs[pairs.size()]`, which is no stored entry. -/
theorem get_reads_past_end [Zero R] (v : SparseVec R) (i : Int) (hne : v.pairs ≠ [])
    (hi : ∀ p ∈ v.pairs, p.ind < i) :
    v.get i = Res.fault ∧ readAt v.pairs (v.pairs.length : Int) = none := by
  constructor
  · unfold SparseVec.get
    have hlen : v.pairs.length ≠ 0 := fun h => hne (List.length_eq_zero.1 h)
    rw [if_neg hlen]
    exact _get_fault v.pairs i hi _ 0 (le_refl _) (by omega) (by omega)
  · exact readAt_of_ge _ (le_refl _)

/-- C18 at the canonical vector `{(0, 1), (3, 5)}` of declared length 5 and the index 4,
which lies inside `[0, len)`. -/
theorem get_reads_past_end_witness :
    SparseVec.get (⟨[⟨0, 1⟩, ⟨3, 5⟩], 5⟩ : SparseVec ℂ) 4 = Res.fault :=
  (get_reads_past_end (⟨[⟨0, 1⟩, ⟨3, 5⟩], 5⟩ : SparseVec ℂ) 4 (by simp) (by simp)).1

end LookupReads

/-! C19: well-formedness is an invariant -/

section WellFormedness

theorem wf_ofLen (l : Int) : WellFormed (ofLen l : SparseVec R) := by
  intro p hp
  cases hp

theorem wf_append (v : SparseVec R) (i : Int) (x : R) (hv : WellFormed v) (hi : 0 ≤ i) :
    WellFormed (v.append i x) := by
  intro p hp
  have hlen : v.len ≤ (v.append i x).len := append_len_ge v i x
  have hp' : p ∈ v.pairs ++ [(⟨i, x⟩ : Pair R)] := hp
  rcases List.mem_append.1 hp' with h | h
  · have := hv p h
    exact ⟨this.1, lt_of_lt_of_le this.2 hlen⟩
  · have hpe : p = ⟨i, x⟩ := by simpa using h
    subst hpe
    refine ⟨hi, ?_⟩
    show i < if i ≥ v.len then i + 1 else v.len
    split <;> omega

theorem wf_foldl_append {α : Type} (f : α → Int) (g : α → R) (l : List α)
    (v : SparseVec R) (hv : WellFormed v) (hf : ∀ p ∈ l, 0 ≤ f p) :
    WellFormed (l.foldl (fun out p => out.append (f p) (g p)) v) := by
  induction l generalizing v with
  | nil => exact hv
  | cons p t ih =>
    rw [List.foldl_cons]
    apply ih
    · exact wf_append v _ _ hv (hf p (List.mem_cons_self _ _))
    · intro q hq
      exact hf q (List.mem_cons_of_mem _ hq)

theorem wf_cleanup [AddCommMonoid R] (v : SparseVec R) (hv : WellFormed v) :
    WellFormed v.cleanup := by
  intro p hp
  have h1 : p.ind ∈ v.cleanup.pairs.map Pair.ind := List.mem_map_of_mem _ hp
  rw [cleanup_mem_ind] at h1
  obtain ⟨q, hq, hqp⟩ := List.mem_map.1 h1
  have := hv q hq
  rw [hqp] at this
  exact this

theorem wf_conj [Star R] (v : SparseVec R) (hv : WellFormed v) : WellFormed v.conj := by
  unfold SparseVec.conj
  exact wf_foldl_append (fun p : Pair R => p.ind) (fun p : Pair R => star p.val) _ _
    (wf_ofLen _) (fun p hp => (hv p hp).1)

theorem wf_conv [Mul R] (a b : SparseVec R) (ha : WellFormed a) (hb : WellFormed b) :
    WellFormed (conv a b) := by
  unfold conv
  have key : ∀ (l : List (Pair R)) (w : SparseVec R), (∀ p ∈ l, 0 ≤ p.ind) →
      WellFormed w →
      WellFormed (l.foldl (fun out eb => a.pairs.foldl
        (fun out ea => out.append (eb.ind + ea.ind) (eb.val * ea.val)) out) w) := by
    intro l
    induction l with
    | nil => intro w _ hw; exact hw
    | cons eb t ih =>
      intro w hl hw
      rw [List.foldl_cons]
      apply ih
      · intro p hp
        exact hl p (List.mem_cons_of_mem _ hp)
      · apply wf_foldl_append (fun ea : Pair R => eb.ind + ea.ind)
          (fun ea : Pair R => eb.val * ea.val) _ _ hw
        intro p hp
        have h1 := (ha p hp).1
        have h2 := hl eb (List.mem_cons_self _ _)
        show 0 ≤ eb.ind + p.ind
        omega
  exact key b.pairs _ (fun p hp => (hb p hp).1) (wf_ofLen _)

theorem tdiv_two_nonneg (i : Int) (h : 0 ≤ i) : 0 ≤ i.tdiv 2 := by
  rw [Int.tdiv_eq_ediv h (by norm_num)]
  omega

theorem wf_split_fst (ps : List (Pair R)) (m : Int) (h : ∀ p ∈ ps, 0 ≤ p.ind) :
    WellFormed (splitLoop ps (ofLen m) (ofLen m)).1 := by
  rw [splitLoop_eq]
  apply wf_foldl_append (fun p : Pair R => p.ind.tdiv 2) (fun p : Pair R => p.val) _ _
    (wf_ofLen _)
  intro p hp
  exact tdiv_two_nonneg _ (h p (List.mem_of_mem_filter hp))

theorem wf_split_snd (ps : List (Pair R)) (m : Int) (h : ∀ p ∈ ps, 0 ≤ p.ind) :
    WellFormed (splitLoop ps (ofLen m) (ofLen m)).2 := by
  rw [splitLoop_eq]
  apply wf_foldl_append (fun p : Pair R => (p.ind - 1).tdiv 2) (fun p : Pair R => p.val) _ _
    (wf_ofLen _)
  intro p hp
  have hp' := List.mem_filter.1 hp
  have h0 := h p hp'.1
  have hodd : ¬ p.ind.tmod 2 = 0 := by simpa using hp'.2
  rw [Int.tmod_eq_emod h0 (by norm_num)] at hodd
  exact tdiv_two_nonneg _ (by omega)

/-- In a well-formed vector of declared length 1 every entry has index 0, and the lookup
of index 0 finds the entry it inspects first. -/
theorem get_zero_of_len_one [Zero R] (v : SparseVec R) (hv : WellFormed v)
    (hlen : v.len = 1) : ∃ val, v.get 0 = Res.ok val := by
  unfold SparseVec.get
  by_cases h0 : v.pairs.length = 0
  · rw [if_pos h0]
    exact ⟨0, rfl⟩
  · rw [if_neg h0]
    have hfuel : v.pairs.length + 2 = (v.pairs.length + 1) + 1 := rfl
    rw [hfuel]
    unfold _get
    rw [if_neg (by omega)]
    have hm : ((0 : Int) + (v.pairs.length : Int)).tdiv 2 = (v.pairs.length : Int) / 2 := by
      rw [zero_add, Int.tdiv_eq_ediv (by omega) (by norm_num)]
    simp only [hm]
    obtain ⟨p, hr, hp⟩ := readAt_of_lt v.pairs (m := (v.pairs.length : Int) / 2)
      (by omega) (by omega)
    rw [hr]
    have hmem : p ∈ v.pairs := List.mem_iff_getElem?.2 ⟨_, hp⟩
    have hind : p.ind = 0 := by
      have := hv p hmem
      omega
    simp only
    rw [if_pos hind]
    exact ⟨p.val, rfl⟩

variable [CommRing R]

/-- In an output that stores one entry for each index `0 .. n-1` in this order, every
lookup of an index below `n` returns. -/
theorem get_of_dense (v : SparseVec R) (n : Nat)
    (h : v.pairs.map Pair.ind = (List.range n).map (fun k : Nat => (k : Int)))
    (t : Int) (h0 : 0 ≤ t) (h1 : t < n) : ∃ val, v.get t = Res.ok val := by
  have hc : Canonical v.pairs := by
    unfold Canonical
    rw [h]
    exact List.pairwise_map.2 ((List.pairwise_lt_range n).imp (fun h => by simpa using h))
  refine ⟨_, get_eq_coeff v hc t (Or.inr ?_)⟩
  have hmem : ((n - 1 : Nat) : Int) ∈ v.pairs.map Pair.ind := by
    rw [h]
    exact List.mem_map.2 ⟨n - 1, List.mem_range.2 (by omega), rfl⟩
  obtain ⟨p, hp, hpi⟩ := List.mem_map.1 hmem
  exact ⟨p, hp, by omega⟩

/-- On a well-formed vector of declared length at least 1 the transform returns, whatever
the length and whether or not the entries are canonical: the declared length is kept,
for length 1 the input is returned, and otherwise one entry is stored for each index
below the length. -/
theorem fft_wf (omega : Int → R) :
    ∀ (fuel : Nat) (x : SparseVec R), 1 ≤ x.len → WellFormed x → x.len ≤ fuel →
      ∃ out, fft omega fuel x = Res.ok out ∧ out.len = x.len ∧
        (x.len = 1 → out = x) ∧
        (x.len ≠ 1 → out.pairs.map Pair.ind
          = (List.range x.len.toNat).map (fun k : Nat => (k : Int))) := by
  intro fuel
  induction fuel with
  | zero => intro x h1 _ h3; omega
  | succ fuel ih =>
    intro x h1 hwf hfuel
    by_cases hn : x.len = 1
    · refine ⟨x, ?_, rfl, fun _ => rfl, fun h => absurd hn h⟩
      unfold fft
      simp [hn]
    · have hm : x.len.tdiv 2 = x.len / 2 := Int.tdiv_eq_ediv (by omega) (by norm_num)
      have hm1 : 1 ≤ x.len.tdiv 2 := by rw [hm]; omega
      have hnn : ∀ p ∈ x.pairs, 0 ≤ p.ind := fun p hp => (hwf p hp).1
      have hlt : ∀ p ∈ x.pairs, p.ind < x.len := fun p hp => (hwf p hp).2
      have hele := splitLoop_fst_len_le x.pairs (x.len.tdiv 2) x.len (by omega)
        (by rw [hm]; omega) hlt
      have hole2 := splitLoop_snd_len_le x.pairs (x.len.tdiv 2) x.len (by omega)
        (by rw [hm]; omega) hlt
      have hege := splitLoop_fst_len_ge x.pairs (x.len.tdiv 2)
      have hoge := splitLoop_snd_len_ge x.pairs (x.len.tdiv 2)
      have hwe := wf_split_fst x.pairs (x.len.tdiv 2) hnn
      have hwo := wf_split_snd x.pairs (x.len.tdiv 2) hnn
      obtain ⟨E, hE, hElen, hE1, hE2⟩ :=
        ih (splitLoop x.pairs (ofLen (x.len.tdiv 2)) (ofLen (x.len.tdiv 2))).1
          (by omega) hwe (by omega)
      obtain ⟨O, hO, hOlen, hO1, hO2⟩ :=
        ih (splitLoop x.pairs (ofLen (x.len.tdiv 2)) (ofLen (x.len.tdiv 2))).2
          (by omega) hwo (by omega)
      -- every lookup of the second loop returns
      have hlook : ∀ (c half : SparseVec R), c.len = half.len → WellFormed half →
          x.len.tdiv 2 ≤ half.len → (half.len = 1 → c = half) →
          (half.len ≠ 1 → c.pairs.map Pair.ind
            = (List.range half.len.toNat).map (fun k : Nat => (k : Int))) →
          ∀ k : Nat, ∃ val, c.get ((k : Int).tmod (x.len.tdiv 2)) = Res.ok val := by
        intro c half hcl hwh hge hc1 hc2 k
        have ht : (k : Int).tmod (x.len.tdiv 2) = (k : Int) % (x.len.tdiv 2) :=
          Int.tmod_eq_emod (by omega) (by omega)
        have ht0 : 0 ≤ (k : Int) % (x.len.tdiv 2) := Int.emod_nonneg _ (by omega)
        have ht1 : (k : Int) % (x.len.tdiv 2) < x.len.tdiv 2 := Int.emod_lt_of_pos _ (by omega)
        rw [ht]
        by_cases hh : half.len = 1
        · rw [hc1 hh]
          have hz : (k : Int) % (x.len.tdiv 2) = 0 := by omega
          rw [hz]
          exact get_zero_of_len_one half hwh hh
        · apply get_of_dense c half.len.toNat (hc2 hh) _ ht0
          omega
      choose fe hfe using hlook E _ hElen hwe hege hE1 hE2
      choose fo hfo using hlook O _ hOlen hwo hoge hO1 hO2
      have hL : x.len = ((x.len.toNat : Nat) : Int) := (Int.toNat_of_nonneg (by omega)).symm
      refine ⟨⟨(List.range x.len.toNat).map (fun k : Nat =>
          (⟨(k : Int), fe k + fo k * omega x.len ^ k⟩ : Pair R)), x.len⟩, ?_, rfl,
        fun h => absurd h hn, fun _ => map_range_ind _ _⟩
      unfold fft
      simp only
      rw [if_neg hn, hE, hO]
      simp only [Res.bind]
      rw [butterflyLoop_ok (omega x.len) (x.len.tdiv 2) E O fe fo _ _
        (fun k _ => hfe k) (fun k _ => hfo k)]
      rw [butterfly_out (fun k : Nat => fe k + fo k * omega x.len ^ k) x.len.toNat x.len hL]

/-- C19. Well-formedness (every stored index `i` satisfies `0 <= i < len`) is an
invariant: it holds of a vector constructed without entries (with a non-negative length
in particular), is preserved by `append` with a non-negative index and by `cleanup`,
and holds of `conj(v)`, of `conv(a, b)` and of the result of `fft(x)` for a declared
length of at least 1 (which then returns, given fuel up to the length) whenever it
holds of the arguments. -/
theorem wellFormed_invariant [Star R] (omega : Int → R) :
    (∀ l : Int, 0 ≤ l → WellFormed (ofLen l : SparseVec R)) ∧
    (∀ (v : SparseVec R) (i : Int) (x : R), WellFormed v → 0 ≤ i →
      WellFormed (v.append i x)) ∧
    (∀ v : SparseVec R, WellFormed v → WellFormed v.cleanup) ∧
    (∀ v : SparseVec R, WellFormed v → WellFormed v.conj) ∧
    (∀ a b : SparseVec R, WellFormed a → WellFormed b → WellFormed (conv a b)) ∧
    (∀ x : SparseVec R, WellFormed x → 1 ≤ x.len → ∀ fuel : Nat, x.len ≤ fuel →
      ∃ out, fft omega fuel x = Res.ok out ∧ WellFormed out) := by
  refine ⟨fun l _ => wf_ofLen l, fun v i x hv hi => wf_append v i x hv hi,
    fun v hv => wf_cleanup v hv, fun v hv => wf_conj v hv,
    fun a b ha hb => wf_conv a b ha hb, ?_⟩
  intro x hwf h1 fuel hfuel
  obtain ⟨out, hout, hlen, ho1, ho2⟩ := fft_wf omega fuel x h1 hwf hfuel
  refine ⟨out, hout, ?_⟩
  by_cases hn : x.len = 1
  · rw [ho1 hn]; exact hwf
  · intro p hp
    have hmem : p.ind ∈ out.pairs.map Pair.ind := List.mem_map_of_mem _ hp
    rw [ho2 hn] at hmem
    obtain ⟨k, hk, hkp⟩ := List.mem_map.1 hmem
    have hk' := List.mem_range.1 hk
    rw [hlen, ← hkp]
    omega

end WellFormedness

section CwiseEmpty

/-- When an operand of `cwiseMult` has no entries the loop is not entered: the result is
the vector without entries, of declared length 0. -/
theorem cwiseMult_of_nil [Mul R] (a b : SparseVec R) (h : a.pairs = [] ∨ b.pairs = []) :
    cwiseMult a b = Res.ok SparseVec.empty := by
  unfold SparseVec.cwiseMult
  rcases h with h | h
  · rw [h]
    cases hf : ([] : List (Pair R)).length + b.pairs.length <;> rfl
  · rw [h]
    cases hf : a.pairs.length + ([] : List (Pair R)).length <;>
      cases a.pairs <;> rfl

end CwiseEmpty

end NumCSE
